import Mathlib

/-!
Verification development for the archrepo-docker package-repository shell
(`pkg_shell.py`) and its client helpers (`archrepo/api.py`, `pkgupload.py`).

The Python code is shallowly embedded: strings are lists of characters,
file contents are lists of byte values (`Nat` below 256), the filesystem is
an association list from absolute paths to contents, and external tools
(`repo-add`, `pacman`, `du`, ...) are modelled by an oracle for their exit
status together with an explicit trace of the invocations the shell makes.
-/

set_option autoImplicit false

namespace ArchRepo

/-- Python strings are modelled as lists of characters. -/
abbrev Str := List Char

/-- Byte strings (file contents) are lists of byte values. -/
abbrev Bytes := List Nat

/-- Convenience: the characters of a Lean string literal. -/
def str (s : String) : Str := s.data

/-- Boolean whitespace test, for Python's `str.strip`/`str.split`. -/
def isWs (c : Char) : Bool := c.isWhitespace

/-- Python `s.strip()`: drop whitespace from both ends. -/
def pstrip (s : Str) : Str := ((s.dropWhile isWs).reverse.dropWhile isWs).reverse

/-- Python `s.split(maxsplit=1)` on an already-stripped line: the first
whitespace-delimited token, and the remainder with the separating
whitespace run removed (empty when there is no second token). -/
def split_cmd (s : Str) : Str × Str :=
  (s.takeWhile (fun c => ! isWs c), (s.dropWhile (fun c => ! isWs c)).dropWhile isWs)

/-- Boolean list-prefix test. -/
def pfxB : Str → Str → Bool
  | [], _ => true
  | _ :: _, [] => false
  | a :: as, b :: bs => a == b && pfxB as bs

/-- Boolean suffix test: does `s` end with `suffix`. -/
def endsB (s suffix : Str) : Bool := pfxB suffix.reverse s.reverse



/-- Strict "is absolute path" test (`os.path`-style: starts with '/'). -/
def isAbs (p : Str) : Bool :=
  match p with
  | c :: _ => c == '/'
  | [] => false

/-- `os.path.join dir name` for the shapes the shell uses (directory paths
with no trailing slash): an absolute `name` replaces `dir`. -/
def joinPath (dir name : Str) : Str := if isAbs name then name else dir ++ '/' :: name

/-- Resolution of a (possibly relative) path against the process working
directory, as the OS does for `os.path.isfile`, `open`, `cp`. -/
def resolve (cwd p : Str) : Str := if isAbs p then p else cwd ++ '/' :: p

/-- `os.path.basename`: everything after the last '/'. -/
def basename (p : Str) : Str := (p.reverse.takeWhile (fun c => ! (c == '/'))).reverse

/-! ## Base64, as used by the code

`base64.b64encode` produces the standard alphabet with '=' padding;
`base64.b64decode(s)` (no `validate`) is CPython's lenient
`binascii.a2b_base64`: characters outside the alphabet (e.g. newlines) are
skipped, a completed padding group ends decoding, and a leftover partial
group is an error. -/

/-- The standard base64 alphabet. -/
def b64alphabet : Str :=
  str "ABCDEFGHIJKLMNOPQRSTUVWXYZabcdefghijklmnopqrstuvwxyz0123456789+/"

/-- Character for a sextet value. -/
def b64chr (v : Nat) : Char := b64alphabet.getD v 'A'

/-- Decode table: position of `c` in the alphabet, `none` for foreign
characters (which the lenient decoder skips). -/
def b64idx (c : Char) : Option Nat :=
  if c ∈ b64alphabet then some (b64alphabet.indexOf c) else none

/-- `base64.b64encode`: bytes to characters, three bytes to four sextets,
with '=' padding for a final group of one or two bytes. -/
def b64encode : Bytes → Str
  | [] => []
  | [x] => [b64chr (x / 4), b64chr (x % 4 * 16), '=', '=']
  | [x, y] => [b64chr (x / 4), b64chr (x % 4 * 16 + y / 16), b64chr (y % 16 * 4), '=']
  | x :: y :: z :: rest =>
      b64chr (x / 4) :: b64chr (x % 4 * 16 + y / 16) ::
        b64chr (y % 16 * 4 + z / 64) :: b64chr (z % 64) :: b64encode rest

/-- The state machine of CPython's `binascii.a2b_base64` in non-strict
mode: `quad` counts sextets in the current group, `left` holds the pending
bits, `pads` counts consecutive '=' seen, `out` accumulates output bytes in
reverse.  A '=' completing a group of at least two sextets ends decoding
(the rest of the input is ignored); at end of input a partial group is an
error (`none`). -/
def a2b_loop : Str → Nat → Nat → Nat → Bytes → Option Bytes
  | [], quad, _, _, out => if quad = 0 then some out.reverse else none
  | c :: rest, quad, left, pads, out =>
    if c = '=' then
      if 2 ≤ quad ∧ 4 ≤ quad + pads + 1 then some out.reverse
      else a2b_loop rest quad left (pads + 1) out
    else
      match b64idx c with
      | none => a2b_loop rest quad left pads out
      | some v =>
        match quad with
        | 0 => a2b_loop rest 1 v 0 out
        | 1 => a2b_loop rest 2 (v % 16) 0 ((left * 4 + v / 16) :: out)
        | 2 => a2b_loop rest 3 (v % 4) 0 ((left * 16 + v / 4) :: out)
        | _ => a2b_loop rest 0 0 0 ((left * 64 + v) :: out)

/-- `base64.b64decode` on a character list. -/
def b64decode (s : Str) : Option Bytes := a2b_loop s 0 0 0 []



/-- Characters the lenient decoder does not silently skip. -/
def b64relevant (c : Char) : Bool := (b64idx c).isSome || c == '='



/-- The accumulated upload payload as `receive_file` stores it: each
received line is written back followed by a newline. -/
def joinNL (ls : List Str) : Str := (ls.map (fun l => l ++ ['\n'])).flatten



/-- Successive slices of `size` characters (Python's
`encoded_data[i:i+size]` loop); `size` is furnished as `n + 1` so that it
is positive. -/
def chunkList (n : Nat) : Str → List Str
  | [] => []
  | c :: cs => ((c :: cs).take (n + 1)) :: chunkList n ((c :: cs).drop (n + 1))
termination_by s => s.length
decreasing_by simp; omega

/-- The client's 76-character chunking of the encoded payload. -/
def chunk76 (s : Str) : List Str := chunkList 75 s



/-! ## Shell state model

The filesystem is an association list from absolute path to file contents.
`fsWrite` models `open(path, 'wb')` plus `write` (create or truncate);
`fsRemove` models `unlink(missing_ok=True)` (and plain `unlink` where the
source guarantees existence). -/

/-- A snapshot of the filesystem. -/
structure Sys where
  files : List (Str × Bytes)
deriving DecidableEq

/-- Contents of the file at `p`, if it exists. -/
def fsGet (s : Sys) (p : Str) : Option Bytes := (s.files.lookup p).map id

/-- `os.path.isfile`. -/
def isfile (s : Sys) (p : Str) : Bool := (fsGet s p).isSome

/-- Create or overwrite the file at `p`. -/
def fsWrite (s : Sys) (p : Str) (b : Bytes) : Sys :=
  ⟨(p, b) :: s.files.filter (fun e => ! (e.1 == p))⟩

/-- Delete the file at `p` (no-op when absent). -/
def fsRemove (s : Sys) (p : Str) : Sys :=
  ⟨s.files.filter (fun e => ! (e.1 == p))⟩

/-- The environment-derived configuration of `PackageRepositoryShell`,
plus the working directory the process was started in (relative paths in
`os.path.isfile`/`cp` resolve against it). -/
structure Config where
  repo_dir : Str
  db_name : Str
  upload_dir : Str
  cwd : Str
deriving DecidableEq

/-- Results of the external tools the shell shells out to.  `pacman -Syl`
output is external data; the word-boundary regex match of
`remove_package` is bundled with it as `pacman_has_pkg`. -/
structure Oracle where
  repo_add_ok : Bool
  pacman_ok : Bool
  pacman_lines : List Str
  pacman_has_pkg : Str → Bool
  repo_remove_ok : Bool
  du_ok : Bool

/-- External-process invocations the shell performs, in order. -/
inductive ExtCall where
  | cp (src dst : Str)
  | repo_add (db : Str) (pkg : Str)
  | repo_add_force (db : Str) (pkgs : List Str)
  | pacman_syl
  | repo_remove (db : Str) (name : Str)
  | du (p : Str)
deriving DecidableEq

/-- User-visible output lines, one constructor per print site of
`pkg_shell.py` that the claims observe (textual details abstracted). -/
inductive Report where
  | errNoPackage
  | errPkgFileNotFound (path : Str)
  | errCopyFailed
  | errRepoAdd
  | copyingPkg
  | copyingSig
  | updatingDb
  | pkgAddedOk
  | errNoPkgName
  | errPacman
  | errPkgNotInRepo (name : Str)
  | errRepoRemove
  | removedOk
  | errList
  | listOk (count : Nat)
  | cleanedOk (n : Nat)
  | errClean
  | statusOk
  | errNoFilename
  | readyToReceive (f : Str)
  | errReceiveGeneric
  | fileReceivedOk (f : Str)
  | sigReceivedOk (f : Str)
  | useAddHint (p : Str)
  | errSendNotFound (f : Str)
  | errSendSize
  | sentOk (f : Str) (data : Str)
  | errorsShown
  | helpShown
  | loggingOut
  | errUnknownCommand (cmd : Str)
  | endOfInput
deriving DecidableEq

/-- The name under which the file at absolute path `p` appears in a
listing of directory `dir` (none when `p` lies elsewhere or in a
subdirectory). -/
def entry_name (dir : Str) (p : Str) : Option Str :=
  if pfxB (dir ++ ['/']) p then
    let n := p.drop (dir.length + 1)
    if n.contains '/' || n.isEmpty then none else some n
  else none

/-- Entries of a directory (names containing no '/'), in the order of the
filesystem listing. -/
def dir_entries (dir : Str) (s : Sys) : List Str :=
  s.files.filterMap (fun e => entry_name dir e.1)

/-- A `<pre>*<suf>` glob on a file name (the `*` spans at least zero
characters, so prefix and suffix may not overlap). -/
def glob_ps (pre suf f : Str) : Bool :=
  pfxB pre f && endsB f suf && decide (pre.length + suf.length ≤ f.length)

/-- `Path(repo_dir).glob("*.pkg.tar.zst")`, as bare file names. -/
def glob_pkg (cfg : Config) (s : Sys) : List Str :=
  (dir_entries cfg.repo_dir s).filter (fun n => endsB n (str ".pkg.tar.zst"))

/-- `re.sub(r'-[0-9].*$', '', name)`: cut from the first '-' that is
immediately followed by a digit. -/
def strip_version : Str → Str
  | [] => []
  | [c] => [c]
  | c1 :: c2 :: rest =>
    if c1 = '-' ∧ c2.isDigit then [] else c1 :: strip_version (c2 :: rest)

/-- Ordering of strings by code point, as Python compares them. -/
def lexLe : Str → Str → Bool
  | [], _ => true
  | _ :: _, [] => false
  | a :: as, b :: bs => if a = b then lexLe as bs else decide (a < b)

/-- Insert into a `lexLe`-sorted list. -/
def insLe (x : Str) : List Str → List Str
  | [] => [x]
  | y :: ys => if lexLe x y then x :: y :: ys else y :: insLe x ys

/-- Python's `sorted` on strings (the sorted permutation is unique, so an
insertion sort models it exactly). -/
def sortStrs (l : List Str) : List Str := l.foldr insLe []

/-! ## Command handlers (from `pkg_shell.py`)

Each handler returns its boolean outcome, the new filesystem, the reports
it printed and the external calls it issued, mirroring the corresponding
method of `PackageRepositoryShell`.  Error/history log-file appends are
best-effort side channels the spec puts out of scope; they are not part of
`Sys` (the command history, which claims do observe, is threaded through
the dispatch loops instead). -/

/-- `add_package` (pkg_shell.py:126-207).  The existence probes resolve a
relative `pkg_path` against the process working directory; a file found
outside the repository is copied (`cp`) there together with a `.sig`
found next to it or in the upload directory (signature copy failures are
warnings); then `repo-add` registers it. -/
def add_package (cfg : Config) (orc : Oracle) (sys : Sys) (pkg_path : Str) :
    Bool × Sys × List Report × List ExtCall :=
  if pkg_path.isEmpty then (false, sys, [.errNoPackage], [])
  else
    let pkg_exists := isfile sys (resolve cfg.cwd pkg_path)
    let repo_pkg_path := joinPath cfg.repo_dir (basename pkg_path)
    let repo_pkg_exists := isfile sys repo_pkg_path
    if !pkg_exists && !repo_pkg_exists then
      (false, sys, [.errPkgFileNotFound pkg_path], [])
    else
      let pkg_file := basename pkg_path
      let afterCopy : Option (Sys × List Report × List ExtCall) :=
        if !repo_pkg_exists then
          match fsGet sys (resolve cfg.cwd pkg_path) with
          | none => none
          | some bytes =>
            let sys1 := fsWrite sys repo_pkg_path bytes
            let calls1 := [ExtCall.cp pkg_path cfg.repo_dir]
            let sig_src := resolve cfg.cwd (pkg_path ++ str ".sig")
            let upload_sig := joinPath cfg.upload_dir (pkg_file ++ str ".sig")
            let repo_sig := joinPath cfg.repo_dir (pkg_file ++ str ".sig")
            match fsGet sys sig_src with
            | some sb =>
              some (fsWrite sys1 repo_sig sb, [.copyingPkg, .copyingSig],
                calls1 ++ [.cp (pkg_path ++ str ".sig") repo_sig])
            | none =>
              match fsGet sys upload_sig with
              | some sb =>
                some (fsWrite sys1 repo_sig sb, [.copyingPkg, .copyingSig],
                  calls1 ++ [.cp upload_sig repo_sig])
              | none => some (sys1, [.copyingPkg], calls1)
        else
          some (sys, [], [])
      match afterCopy with
      | none => (false, sys, [.copyingPkg, .errCopyFailed], [.cp pkg_path cfg.repo_dir])
      | some (sys2, outs, calls) =>
        let calls2 := calls ++ [.repo_add cfg.db_name pkg_file]
        if orc.repo_add_ok then
          (true, sys2, outs ++ [.updatingDb, .pkgAddedOk], calls2)
        else
          (false, sys2, outs ++ [.updatingDb, .errRepoAdd], calls2)

/-- `remove_package` (pkg_shell.py:209-290): query `pacman -Syl repo`,
require a word-boundary match for the package name, run `repo-remove`,
then delete `<name>-*.pkg.tar.zst` files and their `.sig` siblings. -/
def remove_package (cfg : Config) (orc : Oracle) (sys : Sys) (pkg_name : Str) :
    Bool × Sys × List Report × List ExtCall :=
  if pkg_name.isEmpty then (false, sys, [.errNoPkgName], [])
  else if !orc.pacman_ok then (false, sys, [.errPacman], [.pacman_syl])
  else if !orc.pacman_has_pkg pkg_name then
    (false, sys, [.errPkgNotInRepo pkg_name], [.pacman_syl])
  else if !orc.repo_remove_ok then
    (false, sys, [.errRepoRemove], [.pacman_syl, .repo_remove cfg.db_name pkg_name])
  else
    let pkg_files := (glob_pkg cfg sys).filter
      (fun n => glob_ps (pkg_name ++ ['-']) (str ".pkg.tar.zst") n)
    let sig_files := (dir_entries cfg.repo_dir sys).filter
      (fun n => glob_ps (pkg_name ++ ['-']) (str ".pkg.tar.zst.sig") n)
    let sys' := (pkg_files ++ sig_files).foldl
      (fun s n => fsRemove s (joinPath cfg.repo_dir n)) sys
    (true, sys', [.removedOk], [.pacman_syl, .repo_remove cfg.db_name pkg_name])

/-- `list_packages` (pkg_shell.py:292-337): print the raw `pacman -Syl
repo` output plus a count of its lines. -/
def list_packages (_cfg : Config) (orc : Oracle) (sys : Sys) :
    Bool × Sys × List Report × List ExtCall :=
  if !orc.pacman_ok then (false, sys, [.errList], [.pacman_syl])
  else (true, sys, [.listOk orc.pacman_lines.length], [.pacman_syl])

/-- Deletion of one old version: `old_version.unlink(missing_ok=True)`
followed by `Path(f"{old_version}.sig").unlink(missing_ok=True)`
(pkg_shell.py:368-370). -/
def remove_version (cfg : Config) (s : Sys) (f : Str) : Sys :=
  fsRemove (fsRemove s (joinPath cfg.repo_dir f)) (joinPath cfg.repo_dir f ++ str ".sig")

/-- The re-globbed, sorted version list for one package name:
`sorted(Path(repo_dir).glob(f"{pkg_name}-*.pkg.tar.zst"))`. -/
def versions_of (cfg : Config) (s : Sys) (name : Str) : List Str :=
  sortStrs ((glob_pkg cfg s).filter
    (fun n => glob_ps (name ++ ['-']) (str ".pkg.tar.zst") n))

/-- One iteration of `clean_repo`'s per-name loop: re-glob
`<name>-*.pkg.tar.zst`, sort, and when more than one version exists delete
all but the last together with their `.sig` files, counting each deleted
version. -/
def clean_step (cfg : Config) (sys : Sys) (cleaned : Nat) (name : Str) : Sys × Nat :=
  let versions := versions_of cfg sys name
  if versions.length > 1 then
    let olds := versions.dropLast
    (olds.foldl (remove_version cfg) sys, cleaned + olds.length)
  else (sys, cleaned)

/-- `clean_repo` (pkg_shell.py:339-410): group the repository's package
files by `strip_version` of their names (a Python `set`; its iteration
order is unspecified, modelled here as sorted), keep only the
highest-sorting version of each group, then unconditionally rebuild the
database with `repo-add -f` from whatever files remain. -/
def clean_repo (cfg : Config) (orc : Oracle) (sys : Sys) :
    Bool × Sys × List Report × List ExtCall :=
  let pkg_files := glob_pkg cfg sys
  let pkg_names := (sortStrs (pkg_files.map strip_version)).dedup
  let r := pkg_names.foldl (fun acc name => clean_step cfg acc.1 acc.2 name) (sys, 0)
  let remaining := glob_pkg cfg r.1
  let calls := [ExtCall.repo_add_force cfg.db_name remaining]
  if orc.repo_add_ok then (true, r.1, [.cleanedOk r.2], calls)
  else (false, r.1, [.errClean], calls)

/-- `show_status` (pkg_shell.py:412-482): pure reads; every sub-metric
failure degrades to an "Unknown" line, so the command reports success. -/
def show_status (cfg : Config) (sys : Sys) : Bool × Sys × List Report × List ExtCall :=
  (true, sys, [.statusOk], [.du cfg.repo_dir])

/-- Input lines consumed by `receive_file`'s read loop: everything up to
a line equal to the `EOF` sentinel (consumed), or the whole stream when
the sentinel never appears (`EOFError` breaks the loop the same way). -/
def collect_until_eof : List Str → List Str × List Str
  | [] => ([], [])
  | l :: ls =>
    if l = str "EOF" then ([], ls)
    else
      let r := collect_until_eof ls
      (l :: r.1, r.2)

/-- `receive_file` (pkg_shell.py:484-583).  The collected lines are
written to a temp file each followed by a newline and decoded as one
base64 string.  The output file is opened for writing (created empty)
before decoding; on decode failure the handler returns through the
generic exception path (`except base64.Error` names an attribute the
`base64` module does not have, so the `AttributeError` lands in the outer
`except Exception`) and the empty output file is left behind. -/
def receive_file (cfg : Config) (sys : Sys) (filename : Str) (input : List Str) :
    Bool × Sys × List Report × List ExtCall × List Str :=
  if filename.isEmpty then (false, sys, [.errNoFilename], [], input)
  else
    let is_signature := endsB filename (str ".sig")
    let r := collect_until_eof input
    let base64_data := joinNL r.1
    let output_path := joinPath cfg.upload_dir filename
    match b64decode base64_data with
    | none =>
      (false, fsWrite sys output_path [], [.readyToReceive filename, .errReceiveGeneric],
       [], r.2)
    | some binary_data =>
      let sys' := fsWrite sys output_path binary_data
      (true, sys',
       [.readyToReceive filename] ++
         (if is_signature then [.sigReceivedOk filename]
          else [.fileReceivedOk filename, .useAddHint output_path]),
       [.du output_path], r.2)

/-- `send_file` (pkg_shell.py:585-661): locate the file in the repository,
the uploads directory, or at the given path, then print its base64
encoding (a `du` size-probe failure aborts the command). -/
def send_file (cfg : Config) (orc : Oracle) (sys : Sys) (filename : Str) :
    Bool × Sys × List Report × List ExtCall :=
  if filename.isEmpty then (false, sys, [.errNoFilename], [])
  else
    let repo_path := joinPath cfg.repo_dir filename
    let upload_path := joinPath cfg.upload_dir filename
    let file_path :=
      if isfile sys repo_path then some repo_path
      else if isfile sys upload_path then some upload_path
      else if isfile sys (resolve cfg.cwd filename) then some (resolve cfg.cwd filename)
      else none
    match file_path with
    | none => (false, sys, [.errSendNotFound filename], [])
    | some p =>
      if !orc.du_ok then (false, sys, [.errSendSize], [.du p])
      else
        match fsGet sys p with
        | some bytes => (true, sys, [.sentOk filename (b64encode bytes)], [.du p])
        | none => (false, sys, [.errSendSize], [.du p])

/-- `show_recent_errors` (pkg_shell.py:101-124): reads the error log
(best-effort sink, abstracted) and reports success. -/
def show_recent_errors (sys : Sys) : Bool × Sys × List Report × List ExtCall :=
  (true, sys, [.errorsShown], [])

/-- The outcome of dispatching one command line. -/
structure CmdR where
  ok : Option Bool
  sys : Sys
  outs : List Report
  calls : List ExtCall
  input : List Str
deriving DecidableEq

/-- `process_command` (pkg_shell.py:672-707): route the verb; `exit`,
`quit` and `logout` signal session termination (`ok = none`), unknown
verbs report a structured error and fail without terminating. -/
def process_command (cfg : Config) (orc : Oracle) (sys : Sys) (cmd args : Str)
    (input : List Str) : CmdR :=
  if cmd = str "add" then
    let r := add_package cfg orc sys args
    ⟨some r.1, r.2.1, r.2.2.1, r.2.2.2, input⟩
  else if cmd = str "remove" then
    let r := remove_package cfg orc sys args
    ⟨some r.1, r.2.1, r.2.2.1, r.2.2.2, input⟩
  else if cmd = str "list" then
    let r := list_packages cfg orc sys
    ⟨some r.1, r.2.1, r.2.2.1, r.2.2.2, input⟩
  else if cmd = str "clean" then
    let r := clean_repo cfg orc sys
    ⟨some r.1, r.2.1, r.2.2.1, r.2.2.2, input⟩
  else if cmd = str "status" then
    let r := show_status cfg sys
    ⟨some r.1, r.2.1, r.2.2.1, r.2.2.2, input⟩
  else if cmd = str "receive" then
    let r := receive_file cfg sys args input
    ⟨some r.1, r.2.1, r.2.2.1, r.2.2.2.1, r.2.2.2.2⟩
  else if cmd = str "send" then
    let r := send_file cfg orc sys args
    ⟨some r.1, r.2.1, r.2.2.1, r.2.2.2, input⟩
  else if cmd = str "errors" then
    let r := show_recent_errors sys
    ⟨some r.1, r.2.1, r.2.2.1, r.2.2.2, input⟩
  else if cmd = str "help" then ⟨some true, sys, [.helpShown], [], input⟩
  else if cmd = str "exit" ∨ cmd = str "quit" ∨ cmd = str "logout" then
    ⟨none, sys, [.loggingOut], [], input⟩
  else ⟨some false, sys, [.errUnknownCommand cmd], [], input⟩



set_option maxHeartbeats 1000000 in
/-- `main_loop` (pkg_shell.py:709-745), the interactive dispatcher over a
finite input stream: strip the line, skip empty input, append any verb
other than `exit` to the command history, dispatch, and stop on the exit
signal or end of input (`EOFError`).  Timestamps on history entries are
abstracted away: an entry is recorded as the command line itself. -/
def main_loop (cfg : Config) (orc : Oracle) :
    List Str → Sys → List Str → Sys × List Str × List Report
  | [], sys, hist => (sys, hist, [.endOfInput])
  | line :: rest, sys, hist =>
    let cmd_input := pstrip line
    if cmd_input.isEmpty then main_loop cfg orc rest sys hist
    else
      let p := split_cmd cmd_input
      let hist' := if p.1 = str "exit" then hist else hist ++ [cmd_input]
      let r := process_command cfg orc sys p.1 p.2 rest
      match r.ok with
      | none => (r.sys, hist', r.outs)
      | some _ =>
        let k := main_loop cfg orc r.input r.sys hist'
        (k.1, k.2.1, r.outs ++ k.2.2)
termination_by input => input.length
decreasing_by
  · simp
  · have hcol : ∀ ls : List Str, (collect_until_eof ls).2.length ≤ ls.length := by
      intro ls
      induction ls with
      | nil => simp [collect_until_eof]
      | cons l ls ih =>
        by_cases h : l = str "EOF"
        · simp [collect_until_eof, h]
        · simp [collect_until_eof, h]
          omega
    have hpc : (process_command cfg orc sys (split_cmd (pstrip line)).1
        (split_cmd (pstrip line)).2 rest).input.length ≤ rest.length := by
      rw [process_command]
      repeat' split
      all_goals simp [receive_file]
      split
      · simp
      · split <;> simp [hcol]
    simp only [List.length_cons]
    omega

set_option maxHeartbeats 1000000 in
/-- `process_stdin` (pkg_shell.py:747-764), the non-interactive
dispatcher: empty lines and lines equal to `exit` are skipped, every
other line is dispatched, and the loop never stops early — the exit
signal returned by `quit`/`logout` is discarded.  No history is written
in this mode. -/
def process_stdin (cfg : Config) (orc : Oracle) :
    List Str → Sys → Sys × List Report
  | [], sys => (sys, [])
  | line :: rest, sys =>
    let l := pstrip line
    if l.isEmpty || l = str "exit" then process_stdin cfg orc rest sys
    else
      let p := split_cmd l
      let r := process_command cfg orc sys p.1 p.2 rest
      let k := process_stdin cfg orc r.input r.sys
      (k.1, r.outs ++ k.2)
termination_by input => input.length
decreasing_by
  · simp
  · have hcol : ∀ ls : List Str, (collect_until_eof ls).2.length ≤ ls.length := by
      intro ls
      induction ls with
      | nil => simp [collect_until_eof]
      | cons l ls ih =>
        by_cases h : l = str "EOF"
        · simp [collect_until_eof, h]
        · simp [collect_until_eof, h]
          omega
    have hpc : (process_command cfg orc sys (split_cmd (pstrip line)).1
        (split_cmd (pstrip line)).2 rest).input.length ≤ rest.length := by
      rw [process_command]
      repeat' split
      all_goals simp [receive_file]
      split
      · simp
      · split <;> simp [hcol]
    simp only [List.length_cons]
    omega

/-! ## Concrete fixtures for witnesses and counterexamples -/

/-- The recognized command verbs of `process_command`. -/
def known_cmds : List Str :=
  [str "add", str "remove", str "list", str "clean", str "status", str "receive",
   str "send", str "errors", str "help", str "exit", str "quit", str "logout"]

/-- The default configuration of `pkg_shell.py` (repository and upload
directories, database name) with the shell started in the login user's
home directory. -/
def cfg0 : Config :=
  ⟨ str "/srv/repo/x86_64", str "repo.db.tar.zst", str "/home/pkguser/uploads",
    str "/home/pkguser" ⟩

/-- An oracle under which every external tool succeeds (and the `pacman`
listing is empty). -/
def orc0 : Oracle := ⟨true, true, [], fun _ => false, true, true⟩

/-- An empty filesystem. -/
def sys0 : Sys := ⟨[]⟩

/-- The files of one package-name group, in the claims' sense: repository
package files whose name, with the version suffix stripped, is `name`. -/
def pkg_group (cfg : Config) (sys : Sys) (name : Str) : List Str :=
  (glob_pkg cfg sys).filter (fun f => strip_version f == name)

/-- A filesystem with one package file outside the repository (for C4). -/
def sysC4 : Sys := ⟨[(str "/tmp/foo-1.0-1-x86_64.pkg.tar.zst", [9, 9])]⟩

/-- Modelled from the spec: the external archive-listing probe accepts
only well-formed archives; a `.pkg.tar.zst` package is zstd-compressed
data, which begins with the 4-byte zstd magic number, so this models
well-formedness as carrying that magic.  Only the negative fact that a
one-byte file is not a well-formed archive is used. -/
def well_formed_zst (b : Bytes) : Bool := b.take 4 == [40, 181, 47, 253]

/-- A filesystem holding a one-byte (hence malformed) package file in the
upload directory (for C5). -/
def sysC5 : Sys := ⟨[(str "/home/pkguser/uploads/bogus-1.0-1-x86_64.pkg.tar.zst", [0])]⟩

/-- A filesystem whose only file sits in the upload staging directory
(for C6). -/
def sysC6 : Sys := ⟨[(str "/home/pkguser/uploads/foo-1.0-1-x86_64.pkg.tar.zst", [1])]⟩

/-- A repository holding two versions each of the packages `foo` and
`foo-bar`, whose glob patterns overlap (for the C7 counterexample). -/
def sysC7 : Sys := ⟨[
  (str "/srv/repo/x86_64/foo-1.0-1-x86_64.pkg.tar.zst", [1]),
  (str "/srv/repo/x86_64/foo-2.0-1-x86_64.pkg.tar.zst", [2]),
  (str "/srv/repo/x86_64/foo-bar-1.0-1-x86_64.pkg.tar.zst", [3]),
  (str "/srv/repo/x86_64/foo-bar-2.0-1-x86_64.pkg.tar.zst", [4])]⟩

/-- A repository holding two versions of a single package `pkga` (for the
C7 amended witness). -/
def sysC7W : Sys := ⟨[
  (str "/srv/repo/x86_64/pkga-1.0-1-x86_64.pkg.tar.zst", [1]),
  (str "/srv/repo/x86_64/pkga-2.0-1-x86_64.pkg.tar.zst", [2])]⟩

/-! ## Library lemmas about the embedded definitions -/

theorem pfxB_iff : ∀ a b : Str, pfxB a b = true ↔ a <+: b := by
  intro a
  induction a with
  | nil => intro b; simp [pfxB]
  | cons x xs ih =>
    intro b
    cases b with
    | nil => simp [pfxB]
    | cons y ys =>
      simp [pfxB, List.cons_prefix_cons, ih ys, and_comm]

theorem pfxB_append (a t : Str) : pfxB a (a ++ t) = true := by
  rw [pfxB_iff]; exact ⟨t, rfl⟩

theorem b64idx_b64chr : ∀ v : Nat, v < 64 → b64idx (b64chr v) = some v := by decide

theorem b64chr_ne_eq : ∀ v : Nat, v < 64 → b64chr v ≠ '=' := by decide

theorem a2b_loop_encode (b : Bytes) (hb : ∀ x ∈ b, x < 256) :
    ∀ out : Bytes, a2b_loop (b64encode b) 0 0 0 out = some (out.reverse ++ b) := by
  induction b using b64encode.induct with
  | case1 =>
    intro out
    simp [b64encode, a2b_loop]
  | case2 x =>
    intro out
    have hx : x < 256 := hb x (by simp)
    have h1 : x / 4 < 64 := by omega
    have h2 : x % 4 * 16 < 64 := by omega
    simp only [b64encode, a2b_loop, b64idx_b64chr _ h1, b64idx_b64chr _ h2,
      if_neg (b64chr_ne_eq _ h1), if_neg (b64chr_ne_eq _ h2)]
    norm_num [a2b_loop]
    omega
  | case3 x y =>
    intro out
    have hx : x < 256 := hb x (by simp)
    have hy : y < 256 := hb y (by simp)
    have h1 : x / 4 < 64 := by omega
    have h2 : x % 4 * 16 + y / 16 < 64 := by omega
    have h3 : y % 16 * 4 < 64 := by omega
    simp only [b64encode, a2b_loop, b64idx_b64chr _ h1, b64idx_b64chr _ h2,
      b64idx_b64chr _ h3, if_neg (b64chr_ne_eq _ h1), if_neg (b64chr_ne_eq _ h2),
      if_neg (b64chr_ne_eq _ h3)]
    norm_num [a2b_loop]
    omega
  | case4 x y z rest ih =>
    intro out
    have hx : x < 256 := hb x (by simp)
    have hy : y < 256 := hb y (by simp)
    have hz : z < 256 := hb z (by simp)
    have h1 : x / 4 < 64 := by omega
    have h2 : x % 4 * 16 + y / 16 < 64 := by omega
    have h3 : y % 16 * 4 + z / 64 < 64 := by omega
    have h4 : z % 64 < 64 := by omega
    have hrest : ∀ w ∈ rest, w < 256 := fun w hw => hb w (by simp [hw])
    simp only [b64encode, a2b_loop, b64idx_b64chr _ h1, b64idx_b64chr _ h2,
      b64idx_b64chr _ h3, b64idx_b64chr _ h4, if_neg (b64chr_ne_eq _ h1),
      if_neg (b64chr_ne_eq _ h2), if_neg (b64chr_ne_eq _ h3), if_neg (b64chr_ne_eq _ h4)]
    have e1 : x / 4 * 4 + (x % 4 * 16 + y / 16) / 16 = x := by omega
    have e2 : (x % 4 * 16 + y / 16) % 16 * 16 + (y % 16 * 4 + z / 64) / 4 = y := by omega
    have e3 : (y % 16 * 4 + z / 64) % 4 * 64 + z % 64 = z := by omega
    rw [e1, e2, e3, ih hrest (z :: y :: x :: out)]
    simp

/-- Round trip of the codec itself: decoding an exact encoding restores
the original bytes. -/
theorem b64decode_b64encode (b : Bytes) (hb : ∀ x ∈ b, x < 256) :
    b64decode (b64encode b) = some b := by
  simpa [b64decode] using a2b_loop_encode b hb []

theorem a2b_loop_filter : ∀ (s : Str) (q l p : Nat) (out : Bytes),
    a2b_loop s q l p out = a2b_loop (s.filter b64relevant) q l p out := by
  intro s
  induction s with
  | nil => simp
  | cons c cs ih =>
    intro q l p out
    by_cases hc : c = '='
    · subst hc
      have hr : b64relevant '=' = true := by decide
      rw [List.filter_cons_of_pos hr]
      by_cases hq : 2 ≤ q ∧ 4 ≤ q + p + 1
      · simp [a2b_loop, hq]
      · simp [a2b_loop, hq, ih]
    · cases hv : b64idx c with
      | none =>
        have hr : b64relevant c = false := by simp [b64relevant, hv, hc]
        rw [List.filter_cons_of_neg (by simp [hr])]
        simp [a2b_loop, hv, hc, ih]
      | some v =>
        have hr : b64relevant c = true := by simp [b64relevant, hv]
        rw [List.filter_cons_of_pos hr]
        match q with
        | 0 => simp [a2b_loop, hv, hc, ih]
        | 1 => simp [a2b_loop, hv, hc, ih]
        | 2 => simp [a2b_loop, hv, hc, ih]
        | (n + 3) => simp [a2b_loop, hv, hc, ih]

theorem filter_joinNL (ls : List Str) :
    (joinNL ls).filter b64relevant = ls.flatten.filter b64relevant := by
  induction ls with
  | nil => simp [joinNL]
  | cons l rest ih =>
    have hn : b64relevant '\n' = false := by decide
    simp [joinNL, List.filter_append, hn] at ih ⊢
    exact ih

/-- Decoding is insensitive to the newlines that line-oriented transfer
introduces between chunks. -/
theorem b64decode_joinNL (ls : List Str) :
    b64decode (joinNL ls) = b64decode ls.flatten := by
  rw [b64decode, b64decode, a2b_loop_filter, filter_joinNL, ← a2b_loop_filter]

theorem chunkList_flatten (n : Nat) : ∀ s : Str, (chunkList n s).flatten = s := by
  intro s
  induction s using chunkList.induct n with
  | case1 => simp [chunkList]
  | case2 c cs ih =>
    rw [chunkList]
    simp only [List.flatten_cons, ih]
    exact List.take_append_drop _ _

theorem lookup_filter_ne {β : Type} (l : List (Str × β)) (p q : Str) (h : ¬ q = p) :
    (l.filter (fun e => ! (e.1 == p))).lookup q = l.lookup q := by
  induction l with
  | nil => rfl
  | cons e es ih =>
    obtain ⟨a, b⟩ := e
    by_cases he : a = p
    · subst he
      rw [List.filter_cons_of_neg (by simp)]
      rw [ih]
      have hq : (q == a) = false := by simp [h]
      simp [List.lookup, hq]
    · rw [List.filter_cons_of_pos (by simp [he])]
      by_cases hq : q = a
      · subst hq; simp [List.lookup]
      · have hqa : (q == a) = false := by simp [hq]
        simp [List.lookup, hqa, ih]

theorem fsGet_fsWrite_self (s : Sys) (p : Str) (b : Bytes) :
    fsGet (fsWrite s p b) p = some b := by
  simp [fsGet, fsWrite, List.lookup]

theorem fsGet_fsWrite_ne (s : Sys) (p q : Str) (b : Bytes) (h : ¬ q = p) :
    fsGet (fsWrite s p b) q = fsGet s q := by
  have hq : (q == p) = false := by simp [h]
  simp [fsGet, fsWrite, List.lookup, hq, lookup_filter_ne _ _ _ h]

theorem fsGet_fsRemove_self (s : Sys) (p : Str) :
    fsGet (fsRemove s p) p = none := by
  simp only [fsGet, fsRemove]
  induction s.files with
  | nil => rfl
  | cons e es ih =>
    obtain ⟨a, b⟩ := e
    by_cases he : a = p
    · subst he; rw [List.filter_cons_of_neg (by simp)]; exact ih
    · rw [List.filter_cons_of_pos (by simp [he])]
      have hpa : (p == a) = false := by simp; exact fun hh => he hh.symm
      simp only [List.lookup, hpa]
      exact ih

theorem fsGet_fsRemove_ne (s : Sys) (p q : Str) (h : ¬ q = p) :
    fsGet (fsRemove s p) q = fsGet s q := by
  simp [fsGet, fsRemove, lookup_filter_ne _ _ _ h]

theorem collect_until_eof_no_sentinel (ls : List Str) (h : ∀ l ∈ ls, ¬ l = str "EOF") :
    collect_until_eof ls = (ls, []) := by
  induction ls with
  | nil => rfl
  | cons l rest ih =>
    rw [collect_until_eof, if_neg (h l (by simp)), ih (fun x hx => h x (by simp [hx]))]

theorem collect_until_eof_append_sentinel (ls : List Str)
    (h : ∀ l ∈ ls, ¬ l = str "EOF") :
    collect_until_eof (ls ++ [str "EOF"]) = (ls, []) := by
  induction ls with
  | nil => simp [collect_until_eof]
  | cons l rest ih =>
    rw [List.cons_append, collect_until_eof, if_neg (h l (by simp)),
      ih (fun x hx => h x (by simp [hx]))]

theorem b64encode_length (b : Bytes) : (b64encode b).length % 4 = 0 := by
  induction b using b64encode.induct with
  | case1 => simp [b64encode]
  | case2 x => simp [b64encode]
  | case3 x y => simp [b64encode]
  | case4 x y z rest ih => simp [b64encode]; omega

theorem chunkList_mem_length (n : Nat) (hn : (n + 1) % 4 = 0) :
    ∀ s : Str, s.length % 4 = 0 → ∀ c ∈ chunkList n s, c.length % 4 = 0 := by
  intro s
  induction s using chunkList.induct n with
  | case1 =>
    intro _ c hc
    simp [chunkList] at hc
  | case2 x xs ih =>
    intro hs c hc
    rw [chunkList] at hc
    rcases List.mem_cons.mp hc with h | h
    · subst h
      simp only [List.length_take, List.length_cons] at *
      omega
    · refine ih ?_ c h
      simp only [List.length_drop, List.length_cons] at *
      omega

theorem chunk76_ne_sentinel (b : Bytes) :
    ∀ c ∈ chunk76 (b64encode b), ¬ c = str "EOF" := by
  intro c hc heq
  have h4 := chunkList_mem_length 75 (by decide) (b64encode b) (b64encode_length b) c hc
  rw [heq] at h4
  simp [str] at h4

theorem collect_until_eof_length (input : List Str) :
    (collect_until_eof input).2.length ≤ input.length := by
  induction input with
  | nil => simp [collect_until_eof]
  | cons l ls ih =>
    by_cases h : l = str "EOF"
    · simp [collect_until_eof, h]
    · simp [collect_until_eof, h]
      omega

theorem process_command_input_length (cfg : Config) (orc : Oracle) (sys : Sys)
    (cmd args : Str) (input : List Str) :
    (process_command cfg orc sys cmd args input).input.length ≤ input.length := by
  rw [process_command]
  repeat' split
  all_goals simp [receive_file]
  split
  · simp
  · split <;> simp [collect_until_eof_length]


theorem process_stdin_cons (cfg : Config) (orc : Oracle) (line : Str)
    (rest : List Str) (sys : Sys) :
    process_stdin cfg orc (line :: rest) sys =
      if (pstrip line).isEmpty || pstrip line = str "exit" then
        process_stdin cfg orc rest sys
      else
        let p := split_cmd (pstrip line)
        let r := process_command cfg orc sys p.1 p.2 rest
        let k := process_stdin cfg orc r.input r.sys
        (k.1, r.outs ++ k.2) := by
  rw [process_stdin]

theorem process_stdin_nil (cfg : Config) (orc : Oracle) (sys : Sys) :
    process_stdin cfg orc [] sys = (sys, []) := by
  rw [process_stdin]

theorem main_loop_nil (cfg : Config) (orc : Oracle) (sys : Sys) (hist : List Str) :
    main_loop cfg orc [] sys hist = (sys, hist, [.endOfInput]) := by
  rw [main_loop]

theorem main_loop_cons (cfg : Config) (orc : Oracle) (line : Str) (rest : List Str)
    (sys : Sys) (hist : List Str) :
    main_loop cfg orc (line :: rest) sys hist =
      if (pstrip line).isEmpty then main_loop cfg orc rest sys hist
      else
        let p := split_cmd (pstrip line)
        let hist' := if p.1 = str "exit" then hist else hist ++ [pstrip line]
        let r := process_command cfg orc sys p.1 p.2 rest
        match r.ok with
        | none => (r.sys, hist', r.outs)
        | some _ =>
          let k := main_loop cfg orc r.input r.sys hist'
          (k.1, k.2.1, r.outs ++ k.2.2) := by
  rw [main_loop]

theorem process_command_receive (cfg : Config) (orc : Oracle) (sys : Sys)
    (args : Str) (input : List Str) :
    process_command cfg orc sys (str "receive") args input =
      ⟨some (receive_file cfg sys args input).1,
       (receive_file cfg sys args input).2.1,
       (receive_file cfg sys args input).2.2.1,
       (receive_file cfg sys args input).2.2.2.1,
       (receive_file cfg sys args input).2.2.2.2⟩ := by
  rfl

/-! ## The claims -/

/-- C1: the claim states that a `receive` whose argument string carries a
second token `expected_hash` verifies a SHA-512 digest of the payload,
failing with `HashMismatch` (and deleting the staged file) on mismatch.
`pkg_shell.py` performs no such verification: `process_command`
(pkg_shell.py:685-686) hands the whole argument string to `receive_file`
as the filename, so with the certainly-wrong hash token `deadbeef` the
payload `hello world` is staged under the name
`test.pkg.tar.zst deadbeef` and the command reports success — while the
repository's own client (`archrepo/api.py:81`) sends
`receive <filename> <sha512>` and then `add <filename>`, which this
behaviour breaks. -/
theorem c1_receive_ignores_hash :
    (process_command cfg0 orc0 sys0 (str "receive") (str "test.pkg.tar.zst deadbeef")
        [str "aGVsbG8gd29ybGQ=", str "EOF"]).ok = some true ∧
    fsGet (process_command cfg0 orc0 sys0 (str "receive")
        (str "test.pkg.tar.zst deadbeef") [str "aGVsbG8gd29ybGQ=", str "EOF"]).sys
      (str "/home/pkguser/uploads/test.pkg.tar.zst deadbeef")
      = some [104, 101, 108, 108, 111, 32, 119, 111, 114, 108, 100] ∧
    fsGet (process_command cfg0 orc0 sys0 (str "receive")
        (str "test.pkg.tar.zst deadbeef") [str "aGVsbG8gd29ybGQ=", str "EOF"]).sys
      (str "/home/pkguser/uploads/test.pkg.tar.zst") = none := by
  refine ⟨by rfl, by rfl, by rfl⟩

/-- C2: encoding a byte string with standard base64, slicing it into
76-character lines as the client does (`_encode_and_send_file`,
archrepo/api.py:84-89), sending the lines plus the `EOF` sentinel to the
server's `receive` (`receive_file`, pkg_shell.py:505-534) stages a file
whose contents are byte-identical to the original; in particular
`decode(concat(chunk(encode(bytes), 76))) = bytes`. -/
theorem c2_upload_roundtrip (cfg : Config) (sys : Sys) (filename : Str) (b : Bytes)
    (hb : ∀ x ∈ b, x < 256) (hf : filename.isEmpty = false) :
    b64decode ((chunk76 (b64encode b)).flatten) = some b ∧
    (receive_file cfg sys filename (chunk76 (b64encode b) ++ [str "EOF"])).1 = true ∧
    fsGet (receive_file cfg sys filename (chunk76 (b64encode b) ++ [str "EOF"])).2.1
      (joinPath cfg.upload_dir filename) = some b := by
  have hflat : (chunk76 (b64encode b)).flatten = b64encode b := chunkList_flatten 75 _
  have hdec : b64decode ((chunk76 (b64encode b)).flatten) = some b := by
    rw [hflat]; exact b64decode_b64encode b hb
  have hcol : collect_until_eof (chunk76 (b64encode b) ++ [str "EOF"])
      = (chunk76 (b64encode b), []) :=
    collect_until_eof_append_sentinel _ (chunk76_ne_sentinel b)
  have hjoin : b64decode (joinNL (chunk76 (b64encode b))) = some b := by
    rw [b64decode_joinNL, hflat]
    exact b64decode_b64encode b hb
  rw [receive_file]
  simp only [hf, Bool.false_eq_true, if_false, hcol, hjoin]
  simp [hdec, fsGet_fsWrite_self]

/-- C2 witness: the round trip at the concrete payload `hello world`. -/
theorem c2_upload_roundtrip_witness :
    b64decode ((chunk76 (b64encode
        [104, 101, 108, 108, 111, 32, 119, 111, 114, 108, 100])).flatten)
      = some [104, 101, 108, 108, 111, 32, 119, 111, 114, 108, 100] ∧
    (receive_file cfg0 sys0 (str "test.pkg.tar.zst")
        (chunk76 (b64encode [104, 101, 108, 108, 111, 32, 119, 111, 114, 108, 100])
          ++ [str "EOF"])).1 = true ∧
    fsGet (receive_file cfg0 sys0 (str "test.pkg.tar.zst")
        (chunk76 (b64encode [104, 101, 108, 108, 111, 32, 119, 111, 114, 108, 100])
          ++ [str "EOF"])).2.1
      (joinPath cfg0.upload_dir (str "test.pkg.tar.zst"))
      = some [104, 101, 108, 108, 111, 32, 119, 111, 114, 108, 100] :=
  c2_upload_roundtrip cfg0 sys0 (str "test.pkg.tar.zst")
    [104, 101, 108, 108, 111, 32, 119, 111, 114, 108, 100] (by decide) (by rfl)

/-- C3 counterexample: the claim states that on undecodable payload no
file — not even an empty one — is created for the given filename.  In
`receive_file` (pkg_shell.py:524) the output file is opened for writing
(created empty) before decoding and is not deleted on the failure path,
so after receiving the undecodable payload `A` the staging directory
holds a zero-byte file under the given name. -/
theorem c3_invalid_encoding_leaves_empty_file :
    (receive_file cfg0 sys0 (str "bad.pkg.tar.zst") [str "A", str "EOF"]).1 = false ∧
    fsGet (receive_file cfg0 sys0 (str "bad.pkg.tar.zst") [str "A", str "EOF"]).2.1
      (str "/home/pkguser/uploads/bad.pkg.tar.zst") = some [] := by
  refine ⟨by rfl, by rfl⟩

/-- C3 as amended: when the accumulated payload lines do not decode, the
command fails — through the generic receive error path, because the
intended `except base64.Error` clause names an attribute the `base64`
module does not define — and a zero-byte file for the given filename
remains in the upload staging directory. -/
theorem c3_amended_decode_failure (cfg : Config) (sys : Sys) (filename : Str)
    (input : List Str) (hf : filename.isEmpty = false)
    (hd : b64decode (joinNL (collect_until_eof input).1) = none) :
    (receive_file cfg sys filename input).1 = false ∧
    (receive_file cfg sys filename input).2.2.1
      = [.readyToReceive filename, .errReceiveGeneric] ∧
    fsGet (receive_file cfg sys filename input).2.1 (joinPath cfg.upload_dir filename)
      = some [] := by
  rw [receive_file]
  simp only [hf, Bool.false_eq_true, if_false, hd]
  simp [fsGet_fsWrite_self]

/-- C3 amended witness, at the undecodable single-line payload `A`. -/
theorem c3_amended_witness :
    (receive_file cfg0 sys0 (str "f.pkg.tar.zst") [str "A"]).1 = false ∧
    (receive_file cfg0 sys0 (str "f.pkg.tar.zst") [str "A"]).2.2.1
      = [.readyToReceive (str "f.pkg.tar.zst"), .errReceiveGeneric] ∧
    fsGet (receive_file cfg0 sys0 (str "f.pkg.tar.zst") [str "A"]).2.1
      (joinPath cfg0.upload_dir (str "f.pkg.tar.zst")) = some [] :=
  c3_amended_decode_failure cfg0 sys0 (str "f.pkg.tar.zst") [str "A"] (by rfl) (by rfl)

/-- C10: in non-interactive mode, when the input stream ends during a
`receive` before any `EOF` sentinel, the `EOFError` handler
(pkg_shell.py:516-518) breaks the read loop and the transfer proceeds
exactly as if the sentinel had been received: the whole session behaves
identically, the collected lines are decoded and staged, and the command
reports success. -/
theorem c10_stream_end_during_receive (cfg : Config) (orc : Oracle) (sys : Sys)
    (line filename : Str) (input : List Str) (b : Bytes)
    (hsp : split_cmd (pstrip line) = (str "receive", filename))
    (hne : ∀ l ∈ input, ¬ l = str "EOF")
    (hf : filename.isEmpty = false)
    (hd : b64decode (joinNL input) = some b) :
    process_stdin cfg orc (line :: input) sys
      = process_stdin cfg orc (line :: (input ++ [str "EOF"])) sys ∧
    receive_file cfg sys filename input
      = receive_file cfg sys filename (input ++ [str "EOF"]) ∧
    (receive_file cfg sys filename input).1 = true ∧
    fsGet (receive_file cfg sys filename input).2.1 (joinPath cfg.upload_dir filename)
      = some b := by
  have hcol1 : collect_until_eof input = (input, []) :=
    collect_until_eof_no_sentinel input hne
  have hcol2 : collect_until_eof (input ++ [str "EOF"]) = (input, []) :=
    collect_until_eof_append_sentinel input hne
  have hrecveq : receive_file cfg sys filename input
      = receive_file cfg sys filename (input ++ [str "EOF"]) := by
    rw [receive_file, receive_file, hcol1, hcol2]
    simp only [hf, Bool.false_eq_true, if_false]
  have hempty : (pstrip line).isEmpty = false := by
    cases hc : pstrip line with
    | nil =>
      rw [hc] at hsp
      have h1 : (split_cmd []).1 = str "receive" := congrArg Prod.fst hsp
      exact absurd h1 (by decide)
    | cons a as => rfl
  have hexit : ¬ pstrip line = str "exit" := by
    intro hc
    rw [hc] at hsp
    have h1 : (split_cmd (str "exit")).1 = str "receive" := congrArg Prod.fst hsp
    exact absurd h1 (by decide)
  refine ⟨?_, hrecveq, ?_, ?_⟩
  · rw [process_stdin_cons, process_stdin_cons]
    rw [if_neg (by simp [hempty, hexit]), if_neg (by simp [hempty, hexit])]
    simp only [hsp, process_command_receive, hrecveq]
  · rw [receive_file]
    simp [hf, hcol1, hd]
  · rw [receive_file]
    simp [hf, hcol1, hd, fsGet_fsWrite_self]


/-- C10 witness: stream ending after one payload line, payload `hello`. -/
theorem c10_witness :
    process_stdin cfg0 orc0 (str "receive f.pkg.tar.zst" :: [str "aGVsbG8="]) sys0
      = process_stdin cfg0 orc0
          (str "receive f.pkg.tar.zst" :: ([str "aGVsbG8="] ++ [str "EOF"])) sys0 ∧
    receive_file cfg0 sys0 (str "f.pkg.tar.zst") [str "aGVsbG8="]
      = receive_file cfg0 sys0 (str "f.pkg.tar.zst") ([str "aGVsbG8="] ++ [str "EOF"]) ∧
    (receive_file cfg0 sys0 (str "f.pkg.tar.zst") [str "aGVsbG8="]).1 = true ∧
    fsGet (receive_file cfg0 sys0 (str "f.pkg.tar.zst") [str "aGVsbG8="]).2.1
      (joinPath cfg0.upload_dir (str "f.pkg.tar.zst")) = some [104, 101, 108, 108, 111] :=
  c10_stream_end_during_receive cfg0 orc0 sys0 (str "receive f.pkg.tar.zst")
    (str "f.pkg.tar.zst") [str "aGVsbG8="] [104, 101, 108, 108, 111]
    (by decide) (by decide) (by rfl) (by rfl)

/-- C9: an unrecognized verb makes `process_command`
(pkg_shell.py:697-702) print a structured error and return failure, and
`main_loop` (pkg_shell.py:730-736) carries on with the rest of the input
stream, so a subsequent valid command still executes. -/
theorem c9_unknown_verb (cfg : Config) (orc : Oracle) (sys : Sys) (hist : List Str)
    (line : Str) (rest : List Str)
    (hne : (pstrip line).isEmpty = false)
    (hu : (split_cmd (pstrip line)).1 ∉ known_cmds) :
    process_command cfg orc sys (split_cmd (pstrip line)).1 (split_cmd (pstrip line)).2 rest
      = ⟨some false, sys, [.errUnknownCommand (split_cmd (pstrip line)).1], [], rest⟩ ∧
    main_loop cfg orc (line :: rest) sys hist
      = ((main_loop cfg orc rest sys (hist ++ [pstrip line])).1,
         (main_loop cfg orc rest sys (hist ++ [pstrip line])).2.1,
         Report.errUnknownCommand (split_cmd (pstrip line)).1
           :: (main_loop cfg orc rest sys (hist ++ [pstrip line])).2.2) := by
  have hn : ∀ v ∈ known_cmds, ¬ (split_cmd (pstrip line)).1 = v :=
    fun v hv h => hu (h ▸ hv)
  have hdisj : ¬((split_cmd (pstrip line)).1 = str "exit"
      ∨ (split_cmd (pstrip line)).1 = str "quit"
      ∨ (split_cmd (pstrip line)).1 = str "logout") := by
    rintro (h | h | h)
    · exact hn (str "exit") (by decide) h
    · exact hn (str "quit") (by decide) h
    · exact hn (str "logout") (by decide) h
  have hpc : process_command cfg orc sys (split_cmd (pstrip line)).1
      (split_cmd (pstrip line)).2 rest
      = ⟨some false, sys, [.errUnknownCommand (split_cmd (pstrip line)).1], [], rest⟩ := by
    rw [process_command]
    rw [if_neg (hn (str "add") (by decide)), if_neg (hn (str "remove") (by decide)),
      if_neg (hn (str "list") (by decide)), if_neg (hn (str "clean") (by decide)),
      if_neg (hn (str "status") (by decide)), if_neg (hn (str "receive") (by decide)),
      if_neg (hn (str "send") (by decide)), if_neg (hn (str "errors") (by decide)),
      if_neg (hn (str "help") (by decide)), if_neg hdisj]
  refine ⟨hpc, ?_⟩
  rw [main_loop_cons, if_neg (by simp [hne])]
  simp only [hpc, if_neg (hn (str "exit") (by decide))]
  simp

/-- C9 witness: the unknown verb `frobnicate` fails, and `help` on the
next line still executes (the help output appears after the error). -/
theorem c9_unknown_verb_witness :
    (process_command cfg0 orc0 sys0 (split_cmd (pstrip (str "frobnicate"))).1
        (split_cmd (pstrip (str "frobnicate"))).2 [str "help"]
      = ⟨some false, sys0,
         [.errUnknownCommand (split_cmd (pstrip (str "frobnicate"))).1], [], [str "help"]⟩ ∧
     main_loop cfg0 orc0 (str "frobnicate" :: [str "help"]) sys0 []
      = ((main_loop cfg0 orc0 [str "help"] sys0 ([] ++ [pstrip (str "frobnicate")])).1,
         (main_loop cfg0 orc0 [str "help"] sys0 ([] ++ [pstrip (str "frobnicate")])).2.1,
         Report.errUnknownCommand (split_cmd (pstrip (str "frobnicate"))).1
           :: (main_loop cfg0 orc0 [str "help"] sys0
                ([] ++ [pstrip (str "frobnicate")])).2.2)) ∧
    (main_loop cfg0 orc0 (str "frobnicate" :: [str "help"]) sys0 []).2.2
      = [Report.errUnknownCommand (str "frobnicate"), Report.helpShown, Report.endOfInput] :=
  ⟨c9_unknown_verb cfg0 orc0 sys0 [] (str "frobnicate") [str "help"]
      (by rfl) (by decide),
   by
    have h := c9_unknown_verb cfg0 orc0 sys0 [] (str "frobnicate") [str "help"]
      (by rfl) (by decide)
    rw [h.2]
    have hhelp : main_loop cfg0 orc0 [str "help"] sys0 ([] ++ [pstrip (str "frobnicate")])
        = (sys0, [str "frobnicate", str "help"], [.helpShown, .endOfInput]) := by
      rw [main_loop_cons]
      simp +decide [main_loop_nil, process_command]
    rw [hhelp]
    simp +decide⟩

/-- C4 counterexample: the claim states a successful `add` of a file
outside the repository moves it (the source disappears).  `add_package`
(pkg_shell.py:149-153) runs `cp`, so after a successful add of
`/tmp/foo-1.0-1-x86_64.pkg.tar.zst` the file exists both in the
repository directory and, contrary to the claim, still at the source. -/
theorem c4_add_copies_not_moves :
    (add_package cfg0 orc0 sysC4 (str "/tmp/foo-1.0-1-x86_64.pkg.tar.zst")).1 = true ∧
    fsGet (add_package cfg0 orc0 sysC4 (str "/tmp/foo-1.0-1-x86_64.pkg.tar.zst")).2.1
      (str "/srv/repo/x86_64/foo-1.0-1-x86_64.pkg.tar.zst") = some [9, 9] ∧
    fsGet (add_package cfg0 orc0 sysC4 (str "/tmp/foo-1.0-1-x86_64.pkg.tar.zst")).2.1
      (str "/tmp/foo-1.0-1-x86_64.pkg.tar.zst") = some [9, 9] := by
  refine ⟨by rfl, by rfl, by rfl⟩

/-- C4 as amended: a successful `add` of a file that exists outside the
repository copies it: afterwards the file exists in the repository
directory and still exists, unchanged, at the source path.  The
separation hypotheses say the repository target and its signature path
do not alias the source file. -/
theorem c4_amended_add_copies (cfg : Config) (orc : Oracle) (sys : Sys) (p : Str)
    (bytes : Bytes)
    (hne : p.isEmpty = false)
    (hsrc : fsGet sys (resolve cfg.cwd p) = some bytes)
    (hrepo : isfile sys (joinPath cfg.repo_dir (basename p)) = false)
    (horc : orc.repo_add_ok = true)
    (hs1 : ¬ resolve cfg.cwd p = joinPath cfg.repo_dir (basename p))
    (hs2 : ¬ resolve cfg.cwd p = joinPath cfg.repo_dir (basename p ++ str ".sig")) :
    (add_package cfg orc sys p).1 = true ∧
    fsGet (add_package cfg orc sys p).2.1 (joinPath cfg.repo_dir (basename p))
      = some bytes ∧
    fsGet (add_package cfg orc sys p).2.1 (resolve cfg.cwd p) = some bytes := by
  have hx : isfile sys (resolve cfg.cwd p) = true := by
    simp [isfile, hsrc]
  have hiso : isAbs (basename p ++ str ".sig") = isAbs (basename p) := by
    cases hb : basename p with
    | nil => rfl
    | cons a as => rfl
  have hs3 : ¬ joinPath cfg.repo_dir (basename p)
      = joinPath cfg.repo_dir (basename p ++ str ".sig") := by
    intro h
    rw [joinPath, joinPath, hiso] at h
    by_cases hab : isAbs (basename p) = true
    · rw [if_pos hab, if_pos hab] at h
      have hl := congrArg List.length h
      simp [str] at hl
    · rw [if_neg hab, if_neg hab] at h
      have hl := congrArg List.length h
      simp [str] at hl
  rw [add_package]
  simp only [hne, Bool.false_eq_true, if_false, hx, hrepo, Bool.not_true,
    Bool.not_false, Bool.false_and, Bool.and_false, Bool.true_and, hsrc, horc]
  cases hsig : fsGet sys (resolve cfg.cwd (p ++ str ".sig")) with
  | some sb =>
    simp only [hsig, if_true, ite_true]
    refine ⟨trivial, ?_, ?_⟩
    · rw [fsGet_fsWrite_ne _ _ _ _ (fun h => hs3 h), fsGet_fsWrite_self]
    · rw [fsGet_fsWrite_ne _ _ _ _ hs2, fsGet_fsWrite_ne _ _ _ _ hs1]
      exact hsrc
  | none =>
    simp only [hsig]
    cases husig : fsGet sys (joinPath cfg.upload_dir (basename p ++ str ".sig")) with
    | some sb =>
      simp only [husig, if_true, ite_true]
      refine ⟨trivial, ?_, ?_⟩
      · rw [fsGet_fsWrite_ne _ _ _ _ (fun h => hs3 h), fsGet_fsWrite_self]
      · rw [fsGet_fsWrite_ne _ _ _ _ hs2, fsGet_fsWrite_ne _ _ _ _ hs1]
        exact hsrc
    | none =>
      simp only [husig, if_true, ite_true]
      refine ⟨trivial, ?_, ?_⟩
      · rw [fsGet_fsWrite_self]
      · rw [fsGet_fsWrite_ne _ _ _ _ hs1]
        exact hsrc

/-- C4 amended witness, at the concrete C4 state. -/
theorem c4_amended_witness :
    (add_package cfg0 orc0 sysC4 (str "/tmp/foo-1.0-1-x86_64.pkg.tar.zst")).1 = true ∧
    fsGet (add_package cfg0 orc0 sysC4 (str "/tmp/foo-1.0-1-x86_64.pkg.tar.zst")).2.1
      (joinPath cfg0.repo_dir (basename (str "/tmp/foo-1.0-1-x86_64.pkg.tar.zst")))
      = some [9, 9] ∧
    fsGet (add_package cfg0 orc0 sysC4 (str "/tmp/foo-1.0-1-x86_64.pkg.tar.zst")).2.1
      (resolve cfg0.cwd (str "/tmp/foo-1.0-1-x86_64.pkg.tar.zst")) = some [9, 9] :=
  c4_amended_add_copies cfg0 orc0 sysC4 (str "/tmp/foo-1.0-1-x86_64.pkg.tar.zst") [9, 9]
    (by rfl) (by rfl) (by rfl) (by rfl) (by decide) (by decide)


/-- C5 counterexample: the claim states a malformed archive fails with
`InvalidPackage` and the index tool is never invoked for it.
`add_package` performs no archive validation: adding a one-byte file
(which carries no zstd magic, so no archive-listing probe would accept
it) still invokes `repo-add` on it, and the command succeeds when the
tool does. -/
theorem c5_invalid_archive_still_registered :
    well_formed_zst [0] = false ∧
    (add_package cfg0 orc0 sysC5
        (str "/home/pkguser/uploads/bogus-1.0-1-x86_64.pkg.tar.zst")).1 = true ∧
    (add_package cfg0 orc0 sysC5
        (str "/home/pkguser/uploads/bogus-1.0-1-x86_64.pkg.tar.zst")).2.2.2
      = [.cp (str "/home/pkguser/uploads/bogus-1.0-1-x86_64.pkg.tar.zst")
            (str "/srv/repo/x86_64"),
         .repo_add (str "repo.db.tar.zst") (str "bogus-1.0-1-x86_64.pkg.tar.zst")] := by
  refine ⟨by rfl, by rfl, by rfl⟩

/-- C5 as amended: `add_package` validates nothing about the file
contents: for any file its existence probes find, whatever the bytes,
the external index tool is invoked on it and the command outcome is
exactly the tool's exit status. -/
theorem c5_amended_no_validation (cfg : Config) (orc : Oracle) (sys : Sys) (p : Str)
    (hne : p.isEmpty = false)
    (hex : isfile sys (resolve cfg.cwd p) = true
      ∨ isfile sys (joinPath cfg.repo_dir (basename p)) = true) :
    ExtCall.repo_add cfg.db_name (basename p) ∈ (add_package cfg orc sys p).2.2.2 ∧
    (add_package cfg orc sys p).1 = orc.repo_add_ok := by
  by_cases hrepo : isfile sys (joinPath cfg.repo_dir (basename p)) = true
  · rw [add_package]
    simp only [hne, Bool.false_eq_true, if_false, hrepo, Bool.not_true, Bool.and_false,
      Bool.false_and, Bool.not_false]
    cases horc : orc.repo_add_ok <;> simp [horc]
  · have hx : isfile sys (resolve cfg.cwd p) = true := hex.resolve_right hrepo
    have hrepo' : isfile sys (joinPath cfg.repo_dir (basename p)) = false := by
      simpa using hrepo
    obtain ⟨bytes, hb⟩ : ∃ b, fsGet sys (resolve cfg.cwd p) = some b := by
      rw [isfile] at hx
      exact Option.isSome_iff_exists.mp hx
    rw [add_package]
    simp only [hne, Bool.false_eq_true, if_false, hx, hrepo', Bool.not_true,
      Bool.not_false, Bool.true_and, Bool.and_true, Bool.false_and, Bool.and_false,
      if_true, ite_true, hb]
    cases hsig : fsGet sys (resolve cfg.cwd (p ++ str ".sig")) with
    | some sb =>
      simp only [hsig, if_true, ite_true]
      cases horc : orc.repo_add_ok <;> simp [horc]
    | none =>
      simp only [hsig]
      cases husig : fsGet sys (joinPath cfg.upload_dir (basename p ++ str ".sig")) with
      | some sb =>
        simp only [husig, if_true, ite_true]
        cases horc : orc.repo_add_ok <;> simp [horc]
      | none =>
        simp only [husig, if_true, ite_true]
        cases horc : orc.repo_add_ok <;> simp [horc]

/-- C5 amended witness, at the malformed one-byte package of `sysC5`. -/
theorem c5_amended_witness :
    ExtCall.repo_add cfg0.db_name
        (basename (str "/home/pkguser/uploads/bogus-1.0-1-x86_64.pkg.tar.zst"))
      ∈ (add_package cfg0 orc0 sysC5
          (str "/home/pkguser/uploads/bogus-1.0-1-x86_64.pkg.tar.zst")).2.2.2 ∧
    (add_package cfg0 orc0 sysC5
        (str "/home/pkguser/uploads/bogus-1.0-1-x86_64.pkg.tar.zst")).1
      = orc0.repo_add_ok :=
  c5_amended_no_validation cfg0 orc0 sysC5
    (str "/home/pkguser/uploads/bogus-1.0-1-x86_64.pkg.tar.zst") (by rfl)
    (Or.inl (by rfl))

theorem add_package_found_no_notfound (cfg : Config) (orc : Oracle) (sys : Sys)
    (p : Str) (hne : p.isEmpty = false)
    (hex : isfile sys (resolve cfg.cwd p) = true
      ∨ isfile sys (joinPath cfg.repo_dir (basename p)) = true) :
    ∀ q, Report.errPkgFileNotFound q ∉ (add_package cfg orc sys p).2.2.1 := by
  intro q
  by_cases hrepo : isfile sys (joinPath cfg.repo_dir (basename p)) = true
  · rw [add_package]
    simp only [hne, Bool.false_eq_true, if_false, hrepo, Bool.not_true, Bool.and_false,
      Bool.false_and, Bool.not_false]
    cases horc : orc.repo_add_ok <;> simp [horc]
  · have hx : isfile sys (resolve cfg.cwd p) = true := hex.resolve_right hrepo
    have hrepo' : isfile sys (joinPath cfg.repo_dir (basename p)) = false := by
      simpa using hrepo
    obtain ⟨bytes, hb⟩ : ∃ b, fsGet sys (resolve cfg.cwd p) = some b := by
      rw [isfile] at hx
      exact Option.isSome_iff_exists.mp hx
    rw [add_package]
    simp only [hne, Bool.false_eq_true, if_false, hx, hrepo', Bool.not_true,
      Bool.not_false, Bool.true_and, Bool.and_true, Bool.false_and, Bool.and_false,
      if_true, ite_true, hb]
    cases hsig : fsGet sys (resolve cfg.cwd (p ++ str ".sig")) with
    | some sb =>
      simp only [hsig, if_true, ite_true]
      cases horc : orc.repo_add_ok <;> simp [horc]
    | none =>
      simp only [hsig]
      cases husig : fsGet sys (joinPath cfg.upload_dir (basename p ++ str ".sig")) with
      | some sb =>
        simp only [husig, if_true, ite_true]
        cases horc : orc.repo_add_ok <;> simp [horc]
      | none =>
        simp only [husig, if_true, ite_true]
        cases horc : orc.repo_add_ok <;> simp [horc]

/-- C6 counterexample: the claim states a relative path is resolved
against the upload staging directory, failing only when the file is in
neither the upload nor the repository directory.  With the default
configuration, the file present in the upload directory and the shell
started in the home directory, `add foo-1.0-1-x86_64.pkg.tar.zst` still
fails with the not-found error, because `add_package`
(pkg_shell.py:137-147) probes the path relative to the process working
directory, not the upload directory. -/
theorem c6_upload_relative_not_found :
    isfile sysC6 (joinPath cfg0.upload_dir (str "foo-1.0-1-x86_64.pkg.tar.zst")) = true ∧
    (add_package cfg0 orc0 sysC6 (str "foo-1.0-1-x86_64.pkg.tar.zst")).1 = false ∧
    (add_package cfg0 orc0 sysC6 (str "foo-1.0-1-x86_64.pkg.tar.zst")).2.2.1
      = [.errPkgFileNotFound (str "foo-1.0-1-x86_64.pkg.tar.zst")] := by
  refine ⟨by rfl, by rfl, by rfl⟩

/-- C6 as amended: a non-absolute path is resolved against the process
working directory (not the upload staging directory), and `add` fails
with the not-found error exactly when the file exists neither at the
resolved path nor in the repository directory under its basename. -/
theorem c6_amended_add_not_found (cfg : Config) (orc : Oracle) (sys : Sys) (p : Str)
    (hne : p.isEmpty = false) :
    ((add_package cfg orc sys p).1 = false ∧
     (add_package cfg orc sys p).2.2.1 = [.errPkgFileNotFound p])
      ↔ (isfile sys (resolve cfg.cwd p) = false
         ∧ isfile sys (joinPath cfg.repo_dir (basename p)) = false) := by
  by_cases h1 : isfile sys (resolve cfg.cwd p) = true
  · have hno := add_package_found_no_notfound cfg orc sys p hne (Or.inl h1)
    constructor
    · rintro ⟨_, houts⟩
      exfalso
      exact hno p (by rw [houts]; exact List.mem_singleton_self _)
    · rintro ⟨hA, _⟩
      rw [h1] at hA
      exact absurd hA (by simp)
  · have h1' : isfile sys (resolve cfg.cwd p) = false := by simpa using h1
    by_cases h2 : isfile sys (joinPath cfg.repo_dir (basename p)) = true
    · have hno := add_package_found_no_notfound cfg orc sys p hne (Or.inr h2)
      constructor
      · rintro ⟨_, houts⟩
        exfalso
        exact hno p (by rw [houts]; exact List.mem_singleton_self _)
      · rintro ⟨_, hB⟩
        rw [h2] at hB
        exact absurd hB (by simp)
    · have h2' : isfile sys (joinPath cfg.repo_dir (basename p)) = false := by
        simpa using h2
      have hval : add_package cfg orc sys p = (false, sys, [.errPkgFileNotFound p], []) := by
        rw [add_package]
        simp [hne, h1', h2']
      simp [hval, h1', h2']

/-- C6 amended witness: a path that exists nowhere fails with the
not-found error. -/
theorem c6_amended_witness :
    ((add_package cfg0 orc0 sys0 (str "missing.pkg.tar.zst")).1 = false ∧
     (add_package cfg0 orc0 sys0 (str "missing.pkg.tar.zst")).2.2.1
       = [.errPkgFileNotFound (str "missing.pkg.tar.zst")])
      ↔ (isfile sys0 (resolve cfg0.cwd (str "missing.pkg.tar.zst")) = false
         ∧ isfile sys0 (joinPath cfg0.repo_dir (basename (str "missing.pkg.tar.zst")))
             = false) :=
  c6_amended_add_not_found cfg0 orc0 sys0 (str "missing.pkg.tar.zst") (by rfl)


/-- C8 counterexample: the claim states that `exit`, `quit` and `logout`
terminate the session with no further commands executed and are never
written to the command history.  In the interactive loop only the literal
verb `exit` is exempted from history (pkg_shell.py:728), so `quit` IS
appended; and in the non-interactive loop the exit signal returned for
`logout` is discarded (pkg_shell.py:759 ignores the result), so the
following `help` command still executes. -/
theorem c8_exit_verbs_counterexample :
    (main_loop cfg0 orc0 [str "quit"] sys0 []).2.1 = [str "quit"] ∧
    (process_stdin cfg0 orc0 [str "logout", str "help"] sys0).2
      = [Report.loggingOut, Report.helpShown] := by
  constructor
  · rw [main_loop_cons]
    simp +decide [process_command]
  · rw [process_stdin_cons]
    simp +decide [process_command, process_stdin_cons, process_stdin_nil]

/-- C8 as amended: in the interactive loop, a line whose verb is `exit`,
`quit` or `logout` terminates the session without executing any further
command, but only `exit` is kept out of the command history — `quit` and
`logout` are appended to it before the session ends.  In the
non-interactive loop no line is ever appended to history; a line equal to
`exit` is skipped outright, and `quit`/`logout` print the logout notice
but do not stop the processing of subsequent lines. -/
theorem c8_amended_exit_verbs (cfg : Config) (orc : Oracle) (sys : Sys)
    (hist : List Str) (line : Str) (rest : List Str) (v args : Str)
    (hv : v = str "exit" ∨ v = str "quit" ∨ v = str "logout")
    (hne : (pstrip line).isEmpty = false)
    (hsp : split_cmd (pstrip line) = (v, args)) :
    main_loop cfg orc (line :: rest) sys hist
      = (sys, (if v = str "exit" then hist else hist ++ [pstrip line]),
         [Report.loggingOut]) ∧
    process_stdin cfg orc (line :: rest) sys
      = (if pstrip line = str "exit" then process_stdin cfg orc rest sys
         else ((process_stdin cfg orc rest sys).1,
               Report.loggingOut :: (process_stdin cfg orc rest sys).2)) := by
  have hpc : ∀ s' : Sys, process_command cfg orc s' v args rest
      = ⟨none, s', [.loggingOut], [], rest⟩ := by
    intro s'
    rcases hv with h | h | h <;> subst h <;> rfl
  constructor
  · rw [main_loop_cons, if_neg (by simp [hne])]
    simp only [hsp, hpc]
  · by_cases hex : pstrip line = str "exit"
    · rw [process_stdin_cons, if_pos (by simp [hex]), if_pos hex]
    · rw [process_stdin_cons, if_neg (by simp [hne, hex]), if_neg hex]
      simp only [hsp, hpc]
      simp

/-- C8 amended witness: `logout` followed by `help`, interactively and on
a plain stream. -/
theorem c8_amended_witness :
    (main_loop cfg0 orc0 (str "logout" :: [str "help"]) sys0 []
      = (sys0, (if str "logout" = str "exit" then [] else [] ++ [pstrip (str "logout")]),
         [Report.loggingOut]) ∧
     process_stdin cfg0 orc0 (str "logout" :: [str "help"]) sys0
      = (if pstrip (str "logout") = str "exit"
         then process_stdin cfg0 orc0 [str "help"] sys0
         else ((process_stdin cfg0 orc0 [str "help"] sys0).1,
               Report.loggingOut :: (process_stdin cfg0 orc0 [str "help"] sys0).2))) :=
  c8_amended_exit_verbs cfg0 orc0 sys0 [] (str "logout") [str "help"]
    (str "logout") [] (Or.inr (Or.inr rfl)) (by rfl) (by rfl)


/-! ## Ordering lemmas for the embedded string sort -/

theorem lexLe_refl : ∀ a : Str, lexLe a a = true := by
  intro a
  induction a with
  | nil => rfl
  | cons x xs ih => simp [lexLe, ih]

theorem lexLe_total : ∀ a b : Str, lexLe a b = true ∨ lexLe b a = true := by
  intro a
  induction a with
  | nil => intro b; left; rfl
  | cons x xs ih =>
    intro b
    cases b with
    | nil => right; rfl
    | cons y ys =>
      by_cases hxy : x = y
      · subst hxy
        rcases ih ys with h | h
        · left; simp [lexLe, h]
        · right; simp [lexLe, h]
      · rcases lt_trichotomy x y with h | h | h
        · left; simp [lexLe, hxy, h]
        · exact absurd h hxy
        · right
          have hyx : ¬ y = x := fun hh => hxy hh.symm
          simp [lexLe, hyx, h]

theorem lexLe_trans : ∀ a b c : Str, lexLe a b = true → lexLe b c = true →
    lexLe a c = true := by
  intro a
  induction a with
  | nil => intro b c _ _; rfl
  | cons x xs ih =>
    intro b c hab hbc
    cases b with
    | nil => simp [lexLe] at hab
    | cons y ys =>
      cases c with
      | nil => simp [lexLe] at hbc
      | cons z zs =>
        by_cases hxy : x = y
        · subst hxy
          by_cases hyz : x = z
          · subst hyz
            simp only [lexLe, if_pos rfl] at *
            exact ih ys zs hab hbc
          · simp only [lexLe, if_pos rfl] at hab
            simp only [lexLe, if_neg hyz] at hbc ⊢
            exact hbc
        · by_cases hyz : y = z
          · subst hyz
            simp only [lexLe, if_neg hxy] at hab ⊢
            exact hab
          · simp only [lexLe, if_neg hxy, decide_eq_true_eq] at hab
            simp only [lexLe, if_neg hyz, decide_eq_true_eq] at hbc
            have hxz : x < z := lt_trans hab hbc
            have hxz' : ¬ x = z := ne_of_lt hxz
            simp [lexLe, hxz', hxz]

/-- The pairwise ordering of a list under `lexLe`. -/
theorem insLe_perm (x : Str) (l : List Str) : List.Perm (insLe x l) (x :: l) := by
  induction l with
  | nil => rfl
  | cons y ys ih =>
    rw [insLe]
    by_cases h : lexLe x y = true
    · simp [h]
    · simp only [h, if_false]
      exact (ih.cons y).trans (List.Perm.swap x y ys)

theorem sortStrs_perm (l : List Str) : List.Perm (sortStrs l) l := by
  induction l with
  | nil => rfl
  | cons x xs ih =>
    exact (insLe_perm x (sortStrs xs)).trans (ih.cons x)

theorem insLe_sorted (x : Str) (l : List Str)
    (hl : l.Pairwise (fun a b => lexLe a b = true)) :
    (insLe x l).Pairwise (fun a b => lexLe a b = true) := by
  induction l with
  | nil => simp [insLe]
  | cons y ys ih =>
    rw [insLe]
    rcases List.pairwise_cons.mp hl with ⟨hy, hys⟩
    by_cases h : lexLe x y = true
    · rw [if_pos h]
      refine List.pairwise_cons.mpr ⟨?_, hl⟩
      intro a ha
      rcases List.mem_cons.mp ha with rfl | ha
      · exact h
      · exact lexLe_trans x y a h (hy a ha)
    · rw [if_neg h]
      have hyx : lexLe y x = true := (lexLe_total x y).resolve_left h
      refine List.pairwise_cons.mpr ⟨?_, ih hys⟩
      intro a ha
      rcases List.mem_cons.mp ((insLe_perm x ys).mem_iff.mp ha) with rfl | ha2
      · exact hyx
      · exact hy a ha2

theorem sortStrs_sorted (l : List Str) :
    (sortStrs l).Pairwise (fun a b => lexLe a b = true) := by
  induction l with
  | nil => simp [sortStrs]
  | cons x xs ih => exact insLe_sorted x (sortStrs xs) ih

theorem sorted_getLast_max (l : List Str)
    (hl : l.Pairwise (fun a b => lexLe a b = true)) (x k : Str)
    (hx : x ∈ l) (hk : l.getLast? = some k) : lexLe x k = true := by
  induction l with
  | nil => cases hx
  | cons y ys ih =>
    rcases List.pairwise_cons.mp hl with ⟨hy, hys⟩
    cases ys with
    | nil =>
      simp at hx hk
      subst hx; subst hk
      exact lexLe_refl x
    | cons z zs =>
      rw [List.getLast?_cons_cons] at hk
      rcases List.mem_cons.mp hx with rfl | hx
      · have hkmem : k ∈ z :: zs := List.mem_of_mem_getLast? hk
        exact hy k hkmem
      · exact ih hys hx hk

theorem nodup_mem_dropLast_iff (l : List Str) (hl : l.Nodup) (x : Str) :
    x ∈ l.dropLast ↔ (x ∈ l ∧ l.getLast? ≠ some x) := by
  induction l with
  | nil => simp
  | cons y ys ih =>
    cases ys with
    | nil => simp [eq_comm]
    | cons z zs =>
      rcases List.nodup_cons.mp hl with ⟨hy, hys⟩
      rw [List.dropLast_cons₂, List.getLast?_cons_cons]
      constructor
      · intro hx
        rcases List.mem_cons.mp hx with rfl | hx
        · refine ⟨List.mem_cons_self _ _, ?_⟩
          intro hk
          exact hy (List.mem_of_mem_getLast? hk)
        · rcases (ih hys).mp hx with ⟨h1, h2⟩
          exact ⟨List.mem_cons_of_mem _ h1, h2⟩
      · rintro ⟨hx, hlast⟩
        rcases List.mem_cons.mp hx with rfl | hx
        · exact List.mem_cons_self _ _
        · exact List.mem_cons_of_mem _ ((ih hys).mpr ⟨hx, hlast⟩)


/-! ## Directory-listing lemmas -/

theorem entry_name_eq_some (dir p n : Str) :
    entry_name dir p = some n ↔
      (p = dir ++ '/' :: n ∧ n.contains '/' = false ∧ n.isEmpty = false) := by
  rw [entry_name]
  by_cases hp : pfxB (dir ++ ['/']) p = true
  · rw [if_pos hp]
    obtain ⟨t, ht⟩ := (pfxB_iff _ _).mp hp
    subst ht
    have hd : ((dir ++ ['/']) ++ t).drop (dir.length + 1) = t := by
      have hlen : (dir ++ ['/']).length = dir.length + 1 := by simp
      rw [← hlen, List.drop_left]
    simp only [hd]
    have happ : ((dir ++ ['/']) ++ t = dir ++ '/' :: n) ↔ t = n := by
      rw [List.append_assoc]
      simp
    by_cases hc : (t.contains '/' || t.isEmpty) = true
    · rw [if_pos hc]
      constructor
      · intro h; cases h
      · rintro ⟨h1, h2, h3⟩
        have ht : t = n := happ.mp h1
        subst ht
        rw [h2, h3] at hc
        cases hc
    · rw [if_neg hc]
      rw [Bool.or_eq_true, not_or, Bool.not_eq_true, Bool.not_eq_true] at hc
      constructor
      · intro h
        have ht : t = n := by injection h
        subst ht
        exact ⟨happ.mpr rfl, hc.1, hc.2⟩
      · rintro ⟨h1, _, _⟩
        rw [happ.mp h1]
  · rw [if_neg hp]
    constructor
    · intro h; cases h
    · rintro ⟨h1, _, _⟩
      exfalso
      apply hp
      rw [h1]
      have h2 : dir ++ '/' :: n = (dir ++ ['/']) ++ n := by simp
      rw [h2]
      exact pfxB_append _ _

theorem mem_dir_entries (dir : Str) (s : Sys) (n : Str) :
    n ∈ dir_entries dir s ↔
      ((∃ e ∈ s.files, e.1 = dir ++ '/' :: n)
        ∧ n.contains '/' = false ∧ n.isEmpty = false) := by
  rw [dir_entries, List.mem_filterMap]
  constructor
  · rintro ⟨e, he, hen⟩
    rcases (entry_name_eq_some dir e.1 n).mp hen with ⟨h1, h2, h3⟩
    exact ⟨⟨e, he, h1⟩, h2, h3⟩
  · rintro ⟨⟨e, he, h1⟩, h2, h3⟩
    exact ⟨e, he, (entry_name_eq_some dir e.1 n).mpr ⟨h1, h2, h3⟩⟩

theorem mem_glob_pkg_props (cfg : Config) (s : Sys) (n : Str)
    (hn : n ∈ glob_pkg cfg s) : n.contains '/' = false ∧ n.isEmpty = false := by
  rw [glob_pkg, List.mem_filter] at hn
  rcases (mem_dir_entries _ _ _).mp hn.1 with ⟨_, h2, h3⟩
  exact ⟨h2, h3⟩

theorem dir_entries_fsRemove (dir : Str) (s : Sys) (m : Str)
    (hm : m.contains '/' = false) (hm2 : m.isEmpty = false) :
    dir_entries dir (fsRemove s (dir ++ '/' :: m))
      = (dir_entries dir s).filter (fun n => ! (n == m)) := by
  rw [dir_entries, dir_entries, fsRemove]
  induction s.files with
  | nil => rfl
  | cons e es ih =>
    by_cases hep : e.1 = dir ++ '/' :: m
    · rw [List.filter_cons_of_neg (by simp [hep])]
      have hen : entry_name dir e.1 = some m :=
        (entry_name_eq_some _ _ _).mpr ⟨hep, hm, hm2⟩
      rw [List.filterMap_cons, hen]
      rw [List.filter_cons_of_neg (by simp)]
      exact ih
    · rw [List.filter_cons_of_pos (by simp [hep])]
      rw [List.filterMap_cons, List.filterMap_cons]
      cases hen : entry_name dir e.1 with
      | none => exact ih
      | some n =>
        have hnm : ¬ n = m := by
          intro hh
          subst hh
          exact hep ((entry_name_eq_some _ _ _).mp hen).1
        rw [List.filter_cons_of_pos (by simp [hnm])]
        rw [ih]

theorem sig_not_pkg (f : Str) :
    endsB (f ++ str ".sig") (str ".pkg.tar.zst") = false := by
  rw [endsB, List.reverse_append]
  rfl

theorem contains_append_slash (f g : Str) (hf : f.contains '/' = false)
    (hg : g.contains '/' = false) : (f ++ g).contains '/' = false := by
  rw [List.contains_eq_any_beq] at *
  simp only [List.any_append, Bool.or_eq_false_iff]
  exact ⟨hf, hg⟩

theorem isAbs_of_no_slash (f : Str) (hf : f.contains '/' = false) :
    isAbs f = false := by
  cases f with
  | nil => rfl
  | cons a as =>
    rw [show isAbs (a :: as) = (a == '/') from rfl]
    by_contra hc
    rw [Bool.not_eq_false, beq_iff_eq] at hc
    subst hc
    rw [List.contains_eq_any_beq] at hf
    simp at hf

theorem glob_pkg_fsRemove_pkg (cfg : Config) (s : Sys) (f : Str)
    (hf : f.contains '/' = false) (hf2 : f.isEmpty = false) :
    glob_pkg cfg (fsRemove s (joinPath cfg.repo_dir f))
      = (glob_pkg cfg s).filter (fun n => ! (n == f)) := by
  rw [joinPath, isAbs_of_no_slash f hf]
  simp only [Bool.false_eq_true, if_false]
  rw [glob_pkg, glob_pkg, dir_entries_fsRemove _ _ _ hf hf2]
  rw [List.filter_filter, List.filter_filter]
  apply List.filter_congr
  intro n _
  rw [Bool.and_comm]

theorem glob_pkg_fsRemove_sig (cfg : Config) (s : Sys) (f : Str)
    (hf : f.contains '/' = false) (hf2 : f.isEmpty = false) :
    glob_pkg cfg (fsRemove s (joinPath cfg.repo_dir f ++ str ".sig"))
      = glob_pkg cfg s := by
  rw [joinPath, isAbs_of_no_slash f hf]
  simp only [Bool.false_eq_true, if_false]
  have hpath : (cfg.repo_dir ++ '/' :: f) ++ str ".sig"
      = cfg.repo_dir ++ '/' :: (f ++ str ".sig") := by simp
  rw [hpath]
  have hm : (f ++ str ".sig").contains '/' = false :=
    contains_append_slash f (str ".sig") hf (by rfl)
  have hm2 : (f ++ str ".sig").isEmpty = false := by
    cases f <;> rfl
  rw [glob_pkg, glob_pkg, dir_entries_fsRemove _ _ _ hm hm2]
  rw [List.filter_filter]
  apply List.filter_congr
  intro n _
  by_cases hn : n = f ++ str ".sig"
  · subst hn
    rw [sig_not_pkg]
    rfl
  · have : (n == f ++ str ".sig") = false := by simp [hn]
    rw [this]
    simp

theorem fsGet_fsRemove_none (s : Sys) (p q : Str) (h : fsGet s p = none) :
    fsGet (fsRemove s q) p = none := by
  by_cases hpq : p = q
  · subst hpq; exact fsGet_fsRemove_self s p
  · rw [fsGet_fsRemove_ne s q p hpq]; exact h

theorem glob_pkg_remove_version (cfg : Config) (s : Sys) (f : Str)
    (hf : f.contains '/' = false) (hf2 : f.isEmpty = false) :
    glob_pkg cfg (remove_version cfg s f)
      = (glob_pkg cfg s).filter (fun n => ! (n == f)) := by
  rw [remove_version, glob_pkg_fsRemove_sig _ _ _ hf hf2,
    glob_pkg_fsRemove_pkg _ _ _ hf hf2]

theorem glob_pkg_remove_fold (cfg : Config) (olds : List Str) : ∀ s : Sys,
    (∀ f ∈ olds, f.contains '/' = false ∧ f.isEmpty = false) →
    glob_pkg cfg (olds.foldl (remove_version cfg) s)
      = (glob_pkg cfg s).filter (fun n => ! olds.contains n) := by
  induction olds with
  | nil =>
    intro s _
    simp
  | cons f fs ih =>
    intro s hprops
    rw [List.foldl_cons,
      ih (remove_version cfg s f) (fun g hg => hprops g (List.mem_cons_of_mem _ hg)),
      glob_pkg_remove_version _ _ _ (hprops f (List.mem_cons_self _ _)).1
        (hprops f (List.mem_cons_self _ _)).2]
    rw [List.filter_filter]
    apply List.filter_congr
    intro n _
    rw [List.contains_cons]
    cases hb : n == f <;> cases hb2 : fs.contains n <;> simp [hb, hb2]

theorem remove_fold_fsGet_mono (cfg : Config) (olds : List Str) : ∀ (s : Sys) (p : Str),
    fsGet s p = none → fsGet (olds.foldl (remove_version cfg) s) p = none := by
  induction olds with
  | nil => intro s p h; exact h
  | cons f fs ih =>
    intro s p h
    rw [List.foldl_cons]
    exact ih _ p (fsGet_fsRemove_none _ _ _ (fsGet_fsRemove_none _ _ _ h))

theorem remove_fold_fsGet_olds (cfg : Config) (olds : List Str) : ∀ (s : Sys) (f : Str),
    f ∈ olds →
    fsGet (olds.foldl (remove_version cfg) s) (joinPath cfg.repo_dir f) = none ∧
    fsGet (olds.foldl (remove_version cfg) s) (joinPath cfg.repo_dir f ++ str ".sig")
      = none := by
  induction olds with
  | nil => intro s f h; cases h
  | cons g gs ih =>
    intro s f hf
    rcases List.mem_cons.mp hf with rfl | hf
    · rw [List.foldl_cons]
      constructor
      · exact remove_fold_fsGet_mono cfg gs _ _
          (fsGet_fsRemove_none _ _ _ (fsGet_fsRemove_self _ _))
      · exact remove_fold_fsGet_mono cfg gs _ _ (fsGet_fsRemove_self _ _)
    · rw [List.foldl_cons]
      exact ih _ f hf

theorem glob_pkg_nodup (cfg : Config) (s : Sys)
    (hnd : (s.files.map Prod.fst).Nodup) : (glob_pkg cfg s).Nodup := by
  apply List.Nodup.filter
  rw [dir_entries]
  have hrw : s.files.filterMap (fun e => entry_name cfg.repo_dir e.1)
      = (s.files.map Prod.fst).filterMap (entry_name cfg.repo_dir) := by
    rw [List.filterMap_map]
    rfl
  rw [hrw]
  refine List.Nodup.filterMap ?_ hnd
  intro a a' b hb hb'
  rw [Option.mem_def] at hb hb'
  rw [((entry_name_eq_some _ _ _).mp hb).1, ((entry_name_eq_some _ _ _).mp hb').1]


theorem versions_eq_group (cfg : Config) (s : Sys) (A : Str)
    (HWF : ∀ f ∈ glob_pkg cfg s,
      glob_ps (strip_version f ++ ['-']) (str ".pkg.tar.zst") f = true)
    (HPF : ∀ f g, f ∈ glob_pkg cfg s → g ∈ glob_pkg cfg s →
      glob_ps (strip_version g ++ ['-']) (str ".pkg.tar.zst") f = true →
      strip_version f = strip_version g)
    (hA : ∃ g ∈ glob_pkg cfg s, strip_version g = A) :
    (glob_pkg cfg s).filter (fun n => glob_ps (A ++ ['-']) (str ".pkg.tar.zst") n)
      = pkg_group cfg s A := by
  rw [pkg_group]
  apply List.filter_congr
  intro f hf
  obtain ⟨g, hg, hgA⟩ := hA
  subst hgA
  by_cases h : glob_ps (strip_version g ++ ['-']) (str ".pkg.tar.zst") f = true
  · rw [h]
    have he := HPF f g hf hg h
    simp [he]
  · have h' : glob_ps (strip_version g ++ ['-']) (str ".pkg.tar.zst") f = false := by
      simpa using h
    rw [h']
    have hne : (strip_version f == strip_version g) = false := by
      by_contra hcc
      rw [Bool.not_eq_false, beq_iff_eq] at hcc
      have hw := HWF f hf
      rw [hcc] at hw
      exact h hw
    rw [hne]

theorem clean_step_spec (cfg : Config) (s : Sys) (cl : Nat) (A : Str)
    (HND : (glob_pkg cfg s).Nodup)
    (HWF : ∀ f ∈ glob_pkg cfg s,
      glob_ps (strip_version f ++ ['-']) (str ".pkg.tar.zst") f = true)
    (HPF : ∀ f g, f ∈ glob_pkg cfg s → g ∈ glob_pkg cfg s →
      glob_ps (strip_version g ++ ['-']) (str ".pkg.tar.zst") f = true →
      strip_version f = strip_version g)
    (hA : ∃ g ∈ glob_pkg cfg s, strip_version g = A) :
    glob_pkg cfg (clean_step cfg s cl A).1
      = (glob_pkg cfg s).filter
          (fun f => ! (strip_version f == A)
            || ((sortStrs (pkg_group cfg s A)).getLast? == some f)) ∧
    (clean_step cfg s cl A).2 = cl + ((pkg_group cfg s A).length - 1) ∧
    (∀ f ∈ pkg_group cfg s A, ¬ (sortStrs (pkg_group cfg s A)).getLast? = some f →
      fsGet (clean_step cfg s cl A).1 (joinPath cfg.repo_dir f) = none ∧
      fsGet (clean_step cfg s cl A).1 (joinPath cfg.repo_dir f ++ str ".sig") = none) ∧
    (∀ p, fsGet s p = none → fsGet (clean_step cfg s cl A).1 p = none) := by
  have hveq : versions_of cfg s A = sortStrs (pkg_group cfg s A) := by
    rw [versions_of, versions_eq_group cfg s A HWF HPF hA]
  have hgnodup : (pkg_group cfg s A).Nodup := List.Nodup.filter _ HND
  have hlnodup : (sortStrs (pkg_group cfg s A)).Nodup :=
    ((sortStrs_perm _).nodup_iff).mpr hgnodup
  have hlperm := sortStrs_perm (pkg_group cfg s A)
  have hgm : ∀ f, f ∈ pkg_group cfg s A ↔ (f ∈ glob_pkg cfg s ∧ strip_version f = A) := by
    intro f
    rw [pkg_group, List.mem_filter]
    simp
  rw [clean_step]
  simp only [hveq]
  by_cases hlen : (sortStrs (pkg_group cfg s A)).length > 1
  · rw [if_pos hlen]
    have holdsmem : ∀ f, f ∈ (sortStrs (pkg_group cfg s A)).dropLast ↔
        (f ∈ pkg_group cfg s A ∧
          ¬ (sortStrs (pkg_group cfg s A)).getLast? = some f) := by
      intro f
      rw [nodup_mem_dropLast_iff _ hlnodup, hlperm.mem_iff]
    have hprops : ∀ f ∈ (sortStrs (pkg_group cfg s A)).dropLast,
        f.contains '/' = false ∧ f.isEmpty = false := by
      intro f hf
      have hfg : f ∈ pkg_group cfg s A := ((holdsmem f).mp hf).1
      exact mem_glob_pkg_props cfg s f ((hgm f).mp hfg).1
    refine ⟨?_, ?_, ?_, ?_⟩
    · rw [glob_pkg_remove_fold cfg _ s hprops]
      apply List.filter_congr
      intro f hf
      by_cases hsf : strip_version f = A
      · have hfg : f ∈ pkg_group cfg s A := (hgm f).mpr ⟨hf, hsf⟩
        by_cases hlast : (sortStrs (pkg_group cfg s A)).getLast? = some f
        · have hnm : ¬ f ∈ (sortStrs (pkg_group cfg s A)).dropLast := by
            rw [holdsmem]
            rintro ⟨_, hh⟩
            exact hh hlast
          simp [hsf, hlast, hnm]
        · have hmem : f ∈ (sortStrs (pkg_group cfg s A)).dropLast :=
            (holdsmem f).mpr ⟨hfg, hlast⟩
          simp [hsf, hmem, hlast]
      · have hnm : ¬ f ∈ (sortStrs (pkg_group cfg s A)).dropLast := fun ha =>
          hsf ((hgm f).mp ((holdsmem f).mp ha).1).2
        simp [hsf, hnm]
    · simp only [List.length_dropLast]
      rw [hlperm.length_eq]
    · intro f hfg hlast
      have hmem : f ∈ (sortStrs (pkg_group cfg s A)).dropLast :=
        (holdsmem f).mpr ⟨hfg, hlast⟩
      exact remove_fold_fsGet_olds cfg _ s f hmem
    · intro p hp
      exact remove_fold_fsGet_mono cfg _ s p hp
  · rw [if_neg hlen]
    have hlen1 : (pkg_group cfg s A).length ≤ 1 := by
      rw [← hlperm.length_eq]
      omega
    have hsingle : ∀ f ∈ pkg_group cfg s A,
        (sortStrs (pkg_group cfg s A)).getLast? = some f := by
      intro f hfg
      have hpos : 0 < (pkg_group cfg s A).length := List.length_pos_of_mem hfg
      have h1 : (pkg_group cfg s A).length = 1 := by omega
      obtain ⟨g, hg⟩ := List.length_eq_one.mp h1
      rw [hg] at hfg
      rcases List.mem_singleton.mp hfg with rfl
      rw [hg]
      rfl
    refine ⟨?_, by omega, ?_, fun p hp => hp⟩
    · symm
      apply List.filter_eq_self.mpr
      intro f hf
      by_cases hsf : strip_version f = A
      · have hfg : f ∈ pkg_group cfg s A := (hgm f).mpr ⟨hf, hsf⟩
        simp [hsingle f hfg]
      · simp [hsf]
    · intro f hfg hlast
      exact absurd (hsingle f hfg) hlast


theorem clean_fold_spec (cfg : Config) : ∀ (ns : List Str) (s : Sys) (cl : Nat),
    ns.Nodup →
    (glob_pkg cfg s).Nodup →
    (∀ f ∈ glob_pkg cfg s,
      glob_ps (strip_version f ++ ['-']) (str ".pkg.tar.zst") f = true) →
    (∀ f g, f ∈ glob_pkg cfg s → g ∈ glob_pkg cfg s →
      glob_ps (strip_version g ++ ['-']) (str ".pkg.tar.zst") f = true →
      strip_version f = strip_version g) →
    (∀ A ∈ ns, ∃ g ∈ glob_pkg cfg s, strip_version g = A) →
    ∀ r, ns.foldl (fun acc name => clean_step cfg acc.1 acc.2 name) (s, cl) = r →
    ((∀ f, f ∈ glob_pkg cfg r.1 ↔ (f ∈ glob_pkg cfg s ∧
        (strip_version f ∈ ns →
          (sortStrs (pkg_group cfg s (strip_version f))).getLast? = some f))) ∧
     r.2 = cl + ((ns.map (fun A => (pkg_group cfg s A).length - 1)).sum) ∧
     (∀ f ∈ glob_pkg cfg s, strip_version f ∈ ns →
        ¬ (sortStrs (pkg_group cfg s (strip_version f))).getLast? = some f →
        fsGet r.1 (joinPath cfg.repo_dir f) = none ∧
        fsGet r.1 (joinPath cfg.repo_dir f ++ str ".sig") = none) ∧
     (∀ p, fsGet s p = none → fsGet r.1 p = none)) := by
  intro ns
  induction ns with
  | nil =>
    rintro s cl _ _ _ _ _ r rfl
    refine ⟨?_, by simp, ?_, fun p hp => hp⟩
    · intro f
      simp
    · intro f _ hmem
      cases hmem
  | cons A ns' ih =>
    intro s cl hnd hgnd HWF HPF hcover r hr
    obtain ⟨hstep1, hstep2, hstep3, hstep4⟩ :=
      clean_step_spec cfg s cl A hgnd HWF HPF (hcover A (List.mem_cons_self _ _))
    rcases hsc : clean_step cfg s cl A with ⟨s1, cl1⟩
    rw [hsc] at hstep1 hstep2 hstep3 hstep4
    dsimp only at hstep1 hstep2 hstep3 hstep4
    rw [List.foldl_cons] at hr
    have hr' : ns'.foldl (fun acc name => clean_step cfg acc.1 acc.2 name) (s1, cl1) = r := by
      rw [← hr, ← hsc]
    have hA_not_ns' : A ∉ ns' := (List.nodup_cons.mp hnd).1
    have hnd' : ns'.Nodup := (List.nodup_cons.mp hnd).2
    have hmem1 : ∀ f, f ∈ glob_pkg cfg s1 ↔ (f ∈ glob_pkg cfg s ∧
        ((! (strip_version f == A)
          || ((sortStrs (pkg_group cfg s A)).getLast? == some f)) = true)) := by
      intro f
      rw [hstep1, List.mem_filter]
    have hsub : ∀ f, f ∈ glob_pkg cfg s1 → f ∈ glob_pkg cfg s :=
      fun f hf => ((hmem1 f).mp hf).1
    have hgnd1 : (glob_pkg cfg s1).Nodup := by
      rw [hstep1]
      exact List.Nodup.filter _ hgnd
    have HWF1 : ∀ f ∈ glob_pkg cfg s1,
        glob_ps (strip_version f ++ ['-']) (str ".pkg.tar.zst") f = true :=
      fun f hf => HWF f (hsub f hf)
    have HPF1 : ∀ f g, f ∈ glob_pkg cfg s1 → g ∈ glob_pkg cfg s1 →
        glob_ps (strip_version g ++ ['-']) (str ".pkg.tar.zst") f = true →
        strip_version f = strip_version g :=
      fun f g hf hg => HPF f g (hsub f hf) (hsub g hg)
    have hgroup_eq : ∀ B, ¬ B = A → pkg_group cfg s1 B = pkg_group cfg s B := by
      intro B hBA
      rw [pkg_group, pkg_group, hstep1, List.filter_filter]
      apply List.filter_congr
      intro f _
      by_cases hsf : strip_version f = B
      · have hfa : (strip_version f == A) = false := by
          simp [hsf]
          exact hBA
        simp [hsf, hfa]
        exact Or.inl hBA
      · simp [hsf]
    have hcover' : ∀ B ∈ ns', ∃ g ∈ glob_pkg cfg s1, strip_version g = B := by
      intro B hB
      obtain ⟨g, hg, hgB⟩ := hcover B (List.mem_cons_of_mem _ hB)
      have hBA : ¬ B = A := fun hh => hA_not_ns' (hh ▸ hB)
      refine ⟨g, (hmem1 g).mpr ⟨hg, ?_⟩, hgB⟩
      have : (strip_version g == A) = false := by
        simp [hgB]
        exact hBA
      simp [this]
    obtain ⟨ih1, ih2, ih3, ih4⟩ :=
      ih s1 cl1 hnd' hgnd1 HWF1 HPF1 hcover' r hr'
    refine ⟨?_, ?_, ?_, fun p hp => ih4 p (hstep4 p hp)⟩
    · intro f
      rw [ih1 f]
      constructor
      · rintro ⟨hf1, himpl⟩
        have hfG : f ∈ glob_pkg cfg s := hsub f hf1
        refine ⟨hfG, ?_⟩
        intro hmemns
        rcases List.mem_cons.mp hmemns with heq | hns'
        · rcases (hmem1 f).mp hf1 with ⟨_, hcond⟩
          have hbeq : ((sortStrs (pkg_group cfg s A)).getLast? == some f) = true := by
            have hfa : (strip_version f == A) = true := by simp [heq]
            simpa [hfa] using hcond
          rw [heq]
          exact eq_of_beq hbeq
        · have hBA : ¬ strip_version f = A := fun hh => hA_not_ns' (hh ▸ hns')
          have hh := himpl hns'
          rwa [hgroup_eq _ hBA] at hh
      · rintro ⟨hfG, himpl⟩
        by_cases hsf : strip_version f = A
        · have hlast : (sortStrs (pkg_group cfg s A)).getLast? = some f := by
            have hh := himpl (by rw [hsf]; exact List.mem_cons_self _ _)
            rwa [hsf] at hh
          refine ⟨(hmem1 f).mpr ⟨hfG, by simp [hsf, hlast]⟩, ?_⟩
          intro hns'
          exact absurd (hsf ▸ hns') hA_not_ns'
        · refine ⟨(hmem1 f).mpr ⟨hfG, by simp [hsf]⟩, ?_⟩
          intro hns'
          rw [hgroup_eq _ hsf]
          exact himpl (List.mem_cons_of_mem _ hns')
    · rw [ih2, hstep2]
      simp only [List.map_cons, List.sum_cons]
      have hmapeq : ns'.map (fun B => (pkg_group cfg s1 B).length - 1)
          = ns'.map (fun B => (pkg_group cfg s B).length - 1) := by
        apply List.map_congr_left
        intro B hB
        rw [hgroup_eq B (fun hh => hA_not_ns' (hh ▸ hB))]
      rw [hmapeq]
      omega
    · intro f hfG hmemns hlast
      rcases List.mem_cons.mp hmemns with heq | hns'
      · have hfg : f ∈ pkg_group cfg s A := by
          rw [pkg_group, List.mem_filter]
          exact ⟨hfG, by simp [heq]⟩
        have h3 := hstep3 f hfg (by rw [← heq]; exact hlast)
        exact ⟨ih4 _ h3.1, ih4 _ h3.2⟩
      · have hBA : ¬ strip_version f = A := fun hh => hA_not_ns' (hh ▸ hns')
        have hf1 : f ∈ glob_pkg cfg s1 := (hmem1 f).mpr ⟨hfG, by simp [hBA]⟩
        exact ih3 f hf1 hns' (by rwa [hgroup_eq _ hBA])


/-- C7 counterexample: the claim quantifies over every repository state
with N > 1 files of one package name.  In `sysC7` the group of name `foo`
has N = 2 members, so the claim demands that the highest-sorting one,
`foo-2.0-1-x86_64.pkg.tar.zst`, be retained and that the per-group count
be N - 1.  But `clean_repo`'s per-name glob `foo-*.pkg.tar.zst` also
matches the `foo-bar` files, so every `foo` file is deleted (including
the highest-sorting one) and the count reported is 3, not 1 + 1. -/
theorem c7_overlapping_groups_counterexample :
    pkg_group cfg0 sysC7 (str "foo")
      = [str "foo-1.0-1-x86_64.pkg.tar.zst", str "foo-2.0-1-x86_64.pkg.tar.zst"] ∧
    (clean_repo cfg0 orc0 sysC7).1 = true ∧
    fsGet (clean_repo cfg0 orc0 sysC7).2.1
      (str "/srv/repo/x86_64/foo-2.0-1-x86_64.pkg.tar.zst") = none ∧
    (clean_repo cfg0 orc0 sysC7).2.2.1 = [Report.cleanedOk 3] := by
  refine ⟨by rfl, by rfl, by rfl, by rfl⟩

/-- C7 as amended: provided every package file's name is well-formed
(it matches its own stripped name's pattern) and the name groups are
pattern-disjoint (a file matching `<name>-*.pkg.tar.zst` belongs to that
name's group — ruling out one package name being a dash-extension of
another), `clean` retains from each group exactly the highest-sorting
version, deletes the others together with their `.sig` siblings, reports
the total number of deleted versions (the sum of N-1 over the groups),
and unconditionally issues a force rebuild of the database from exactly
the remaining package files. -/
theorem c7_amended_clean (cfg : Config) (orc : Oracle) (sys : Sys)
    (hnd : (sys.files.map Prod.fst).Nodup)
    (hwf : ∀ f ∈ glob_pkg cfg sys,
      glob_ps (strip_version f ++ ['-']) (str ".pkg.tar.zst") f = true)
    (hpf : ∀ f ∈ glob_pkg cfg sys, ∀ g ∈ glob_pkg cfg sys,
      glob_ps (strip_version g ++ ['-']) (str ".pkg.tar.zst") f = true →
      strip_version f = strip_version g)
    (horc : orc.repo_add_ok = true) :
    (clean_repo cfg orc sys).1 = true ∧
    (clean_repo cfg orc sys).2.2.1
      = [Report.cleanedOk ((((sortStrs ((glob_pkg cfg sys).map strip_version)).dedup).map
          (fun A => (pkg_group cfg sys A).length - 1)).sum)] ∧
    (clean_repo cfg orc sys).2.2.2
      = [ExtCall.repo_add_force cfg.db_name
          (glob_pkg cfg (clean_repo cfg orc sys).2.1)] ∧
    (∀ f, f ∈ glob_pkg cfg (clean_repo cfg orc sys).2.1
      ↔ (f ∈ glob_pkg cfg sys ∧
         (sortStrs (pkg_group cfg sys (strip_version f))).getLast? = some f)) ∧
    (∀ f ∈ glob_pkg cfg sys,
      ¬ (sortStrs (pkg_group cfg sys (strip_version f))).getLast? = some f →
      fsGet (clean_repo cfg orc sys).2.1 (joinPath cfg.repo_dir f) = none ∧
      fsGet (clean_repo cfg orc sys).2.1 (joinPath cfg.repo_dir f ++ str ".sig")
        = none) ∧
    (∀ f ∈ glob_pkg cfg sys, ∀ k,
      (sortStrs (pkg_group cfg sys (strip_version f))).getLast? = some k →
      lexLe f k = true) := by
  have hgnd := glob_pkg_nodup cfg sys hnd
  have hnames_nodup : ((sortStrs ((glob_pkg cfg sys).map strip_version)).dedup).Nodup :=
    List.nodup_dedup _
  have hmemnames : ∀ f ∈ glob_pkg cfg sys,
      strip_version f ∈ (sortStrs ((glob_pkg cfg sys).map strip_version)).dedup := by
    intro f hf
    rw [List.mem_dedup]
    exact ((sortStrs_perm _).mem_iff).mpr (List.mem_map_of_mem _ hf)
  have hcover : ∀ A ∈ (sortStrs ((glob_pkg cfg sys).map strip_version)).dedup,
      ∃ g ∈ glob_pkg cfg sys, strip_version g = A := by
    intro A hA
    rw [List.mem_dedup] at hA
    exact List.mem_map.mp ((sortStrs_perm _).mem_iff.mp hA)
  obtain ⟨h1, h2, h3, h4⟩ :=
    clean_fold_spec cfg ((sortStrs ((glob_pkg cfg sys).map strip_version)).dedup) sys 0
      hnames_nodup hgnd hwf (fun f g hf hg => hpf f hf g hg) hcover _ rfl
  have hcr : clean_repo cfg orc sys
      = (true,
         (((sortStrs ((glob_pkg cfg sys).map strip_version)).dedup).foldl
            (fun acc name => clean_step cfg acc.1 acc.2 name) (sys, 0)).1,
         [Report.cleanedOk
           (((sortStrs ((glob_pkg cfg sys).map strip_version)).dedup).foldl
              (fun acc name => clean_step cfg acc.1 acc.2 name) (sys, 0)).2],
         [ExtCall.repo_add_force cfg.db_name
           (glob_pkg cfg
             (((sortStrs ((glob_pkg cfg sys).map strip_version)).dedup).foldl
                (fun acc name => clean_step cfg acc.1 acc.2 name) (sys, 0)).1)]) := by
    rw [clean_repo]
    simp only [horc, if_true, ite_true]
  rw [hcr]
  refine ⟨rfl, ?_, rfl, ?_, ?_, ?_⟩
  · rw [h2]
    simp
  · intro f
    rw [h1 f]
    constructor
    · rintro ⟨hf, himpl⟩
      exact ⟨hf, himpl (hmemnames f hf)⟩
    · rintro ⟨hf, hk⟩
      exact ⟨hf, fun _ => hk⟩
  · intro f hf hlast
    exact h3 f hf (hmemnames f hf) hlast
  · intro f hf k hk
    have hfg : f ∈ pkg_group cfg sys (strip_version f) := by
      rw [pkg_group, List.mem_filter]
      exact ⟨hf, by simp⟩
    have hfs : f ∈ sortStrs (pkg_group cfg sys (strip_version f)) :=
      (sortStrs_perm _).mem_iff.mpr hfg
    exact sorted_getLast_max _ (sortStrs_sorted _) f k hfs hk

/-- C7 amended witness: cleaning a repository with two versions of one
package. -/
theorem c7_amended_witness :
    (clean_repo cfg0 orc0 sysC7W).1 = true ∧
    (clean_repo cfg0 orc0 sysC7W).2.2.1
      = [Report.cleanedOk ((((sortStrs ((glob_pkg cfg0 sysC7W).map strip_version)).dedup).map
          (fun A => (pkg_group cfg0 sysC7W A).length - 1)).sum)] ∧
    (clean_repo cfg0 orc0 sysC7W).2.2.2
      = [ExtCall.repo_add_force cfg0.db_name
          (glob_pkg cfg0 (clean_repo cfg0 orc0 sysC7W).2.1)] ∧
    (∀ f, f ∈ glob_pkg cfg0 (clean_repo cfg0 orc0 sysC7W).2.1
      ↔ (f ∈ glob_pkg cfg0 sysC7W ∧
         (sortStrs (pkg_group cfg0 sysC7W (strip_version f))).getLast? = some f)) ∧
    (∀ f ∈ glob_pkg cfg0 sysC7W,
      ¬ (sortStrs (pkg_group cfg0 sysC7W (strip_version f))).getLast? = some f →
      fsGet (clean_repo cfg0 orc0 sysC7W).2.1 (joinPath cfg0.repo_dir f) = none ∧
      fsGet (clean_repo cfg0 orc0 sysC7W).2.1 (joinPath cfg0.repo_dir f ++ str ".sig")
        = none) ∧
    (∀ f ∈ glob_pkg cfg0 sysC7W, ∀ k,
      (sortStrs (pkg_group cfg0 sysC7W (strip_version f))).getLast? = some k →
      lexLe f k = true) :=
  c7_amended_clean cfg0 orc0 sysC7W (by decide) (by decide) (by decide) (by rfl)

end ArchRepo
